import Mathlib

/-!
Verification development for the IGG Markov phrase trainer/generator.

The Python sources embedded here are `src/generate_markov_models.py`
(the trainer: `normalize`, `extract_phrases`, `extract_columns`) and
`src/mcp_markov_models.py` (the generator: `weighted_random_choice`,
`sample_phrase_length`, `select_start_word`, `select_next_word`,
`is_end_word`, `select_random_end_word`, `select_random_word`,
`generate_phrase`, `generate_ideas`, `generate_with_template`), plus the
argument-validation prefix of `generate_ideas` in
`src/mcp_markov_models_simple.py`.

Modelling conventions:
* Python dicts become association lists (`List (key × value)`); Python
  dicts are insertion ordered and have unique keys, and the embedding's
  list operations agree with dict operations on unique-key lists.
* Python floats become `ℚ`.
* Python exceptions become `Except PyError`; the exception classes that
  the embedded code can actually raise are `ValueError`, `IndexError`
  and `ZeroDivisionError`.
* Calls into the global `random` module are modelled by an explicit
  source `RandSource` (a stream of "float" draws for `random.random()`
  and of natural draws for `random.randint` / `random.choice`) together
  with an explicitly threaded draw counter.  A theorem quantifying over
  all sources covers every possible behaviour of the random generator.
* The unbounded restart recursion of `generate_phrase` is modelled with
  an explicit restart budget (`fuel`); a result of `none` means the
  budget was exhausted, so `∀ fuel, ... = none` means the Python call
  never returns (it recurses forever).
-/

set_option autoImplicit false

namespace IGG

/-- Exceptions raised by the embedded Python code. -/
inductive PyError where
  | valueError (msg : String)
  | indexError
  | zeroDivisionError
deriving Repr, DecidableEq

/-- One trained Column Model, as serialized to JSON by the trainer and
consumed by the generator: `transitions` maps a token to a distribution
over successor tokens, `start_words` / `end_words` are distributions
over tokens, `lengths` is a distribution over observed token counts
(JSON stringified-integer keys are modelled as `ℕ`). -/
structure ColumnModel where
  column_index : ℕ
  transitions : List (String × List (String × ℚ))
  start_words : List (String × ℚ)
  end_words : List (String × ℚ)
  lengths : List (ℕ × ℚ)
deriving Repr, DecidableEq

/-- Explicit stream of random draws standing for the global `random`
module: `floats n` models the n-th `random.random()` draw and `nats n`
models the n-th integer draw (`randint` / `choice` index). -/
structure RandSource where
  floats : ℕ → ℚ
  nats : ℕ → ℕ

/-- Python `dict.get` on an association list (first matching key). -/
def alist_get {β : Type} (l : List (String × β)) (key : String) : Option β :=
  match l with
  | [] => none
  | p :: rest => if p.1 = key then some p.2 else alist_get rest key

/-- Python `random.randint(a, b)`: uniform integer in `[a, b]`; raises
`ValueError` on an empty range.  The draw `n` picks the element. -/
def randint (a b : ℕ) (n : ℕ) : Except PyError ℕ :=
  if b < a then .error (.valueError "empty range for randrange")
  else .ok (a + n % (b - a + 1))

/-- The cumulative-sum array built by `weighted_random_choice`. -/
def cumSums (ws : List ℚ) : List ℚ :=
  (ws.scanl (· + ·) 0).tail

/-- The scan `for i, cum_weight in enumerate(cumulative_weights): if
random_val <= cum_weight: return items[i]` followed by the
`return items[-1]` fallback; an out-of-range `items[i]` is Python's
`IndexError`. -/
def pickFirst (items : List String) : List ℚ → ℕ → ℚ → Except PyError String
  | [], _, _ =>
    match items.getLast? with
    | some x => .ok x
    | none => .error .indexError
  | c :: rest, i, r =>
    if r ≤ c then
      match items.get? i with
      | some x => .ok x
      | none => .error .indexError
    else pickFirst items rest (i + 1) r

/-- Python `weighted_random_choice(items, weights)` from `mcp_markov_models.py`.
The internal `random.random()` call is the parameter `r`. -/
def weighted_random_choice (items : List String) (weights : List ℚ) (r : ℚ) :
    Except PyError String :=
  if items.isEmpty ∨ weights.isEmpty then
    .error (.valueError "Items and weights cannot be empty")
  else
    pickFirst items (cumSums weights) 0 (r * (cumSums weights).getLastD 0)

/-- Python `sample_phrase_length(max_length)`: `random.randint(2, max_length)`. -/
def sample_phrase_length (max_length : ℕ) (n : ℕ) : Except PyError ℕ :=
  randint 2 max_length n

/-- Python `select_start_word(start_words_prob)`. -/
def select_start_word (start_words_prob : List (String × ℚ)) (r : ℚ) :
    Except PyError String :=
  weighted_random_choice (start_words_prob.map Prod.fst)
    (start_words_prob.map Prod.snd) r

/-- Python `is_end_word(word, end_words)`: dict-key membership. -/
def is_end_word (word : String) (end_words : List (String × ℚ)) : Bool :=
  end_words.any fun p => p.1 == word

/-- Python `select_random_end_word(end_words_prob)`. -/
def select_random_end_word (end_words_prob : List (String × ℚ)) (r : ℚ) :
    Except PyError String :=
  weighted_random_choice (end_words_prob.map Prod.fst)
    (end_words_prob.map Prod.snd) r

/-- Python `select_random_word(vocabulary)`: `random.choice(list(vocabulary))`,
raising `IndexError` on an empty vocabulary.  The draw `n` picks the
index (Python set iteration order is implementation defined; the claims
depend only on which elements are reachable, and every index is). -/
def select_random_word (vocabulary : List String) (n : ℕ) :
    Except PyError String :=
  if vocabulary.isEmpty then .error .indexError
  else .ok (vocabulary.getD (n % vocabulary.length) "")

/-- Python `select_next_word(current_word, transitions, vocabulary)`: with the
draw at `k` below 0.05 pick a uniformly random vocabulary word,
otherwise follow `transitions.get(current_word)` (returning `none` when
that is absent or empty).  Returns the chosen word together with the
advanced draw counter. -/
def select_next_word (current_word : String)
    (transitions : List (String × List (String × ℚ)))
    (vocabulary : List String) (s : RandSource) (k : ℕ) :
    Except PyError (Option String × ℕ) :=
  if s.floats k < 5 / 100 then
    match select_random_word vocabulary (s.nats (k + 1)) with
    | .error e => .error e
    | .ok w => .ok (some w, k + 2)
  else
    match alist_get transitions current_word with
    | none => .ok (none, k + 1)
    | some next_words_prob =>
      if next_words_prob.isEmpty then .ok (none, k + 1)
      else
        match weighted_random_choice (next_words_prob.map Prod.fst)
            (next_words_prob.map Prod.snd) (s.floats (k + 1)) with
        | .error e => .error e
        | .ok w => .ok (some w, k + 2)

/-- The vocabulary built by `generate_phrase`: union of the keys of
`transitions`, `end_words` and `start_words` (a Python `set`; modelled
as a duplicate-free list — only membership is observable through the
claims). -/
def buildVocabulary (m : ColumnModel) : List String :=
  (m.transitions.map Prod.fst ++ m.end_words.map Prod.fst ++
    m.start_words.map Prod.fst).dedup

/-- Outcome of the bounded `while attempts < max_attempts` walk inside
`generate_phrase`: either the walk fell through to the post-loop repair
with the phrase built so far, or it hit the `len(phrase) >= max_length`
ceiling and the whole generation restarts. -/
inductive WalkOut where
  | finished (phrase : List String) (current_word : String)
  | ceiling

/-- The walk loop of `generate_phrase` (lines 228-245): pick a next
word, append it, stop when the target length is reached at a legal end
word, restart when the hard ceiling is reached, and give up after
`attemptsLeft` iterations (entered with 1000). -/
def phraseWalk (m : ColumnModel) (vocabulary : List String)
    (target_length max_length : ℕ) :
    List String → String → RandSource → ℕ → ℕ → Except PyError (WalkOut × ℕ)
  | phrase, current_word, _, k, 0 => .ok (.finished phrase current_word, k)
  | phrase, current_word, s, k, attemptsLeft + 1 =>
    match select_next_word current_word m.transitions vocabulary s k with
    | .error e => .error e
    | .ok (none, k') => .ok (.finished phrase current_word, k')
    | .ok (some next_word, k') =>
      let phrase' := phrase ++ [next_word]
      if target_length ≤ phrase'.length ∧ is_end_word next_word m.end_words = true then
        .ok (.finished phrase' next_word, k')
      else if max_length ≤ phrase'.length then
        .ok (.ceiling, k')
      else
        phraseWalk m vocabulary target_length max_length phrase' next_word s k' attemptsLeft

/-- The post-loop repair of `generate_phrase` (lines 247-261): if the
walk did not end on a legal end word, append an end word reachable from
the current word when one exists, otherwise an end word drawn directly
from `end_words`. -/
def ensure_end_word (m : ColumnModel) (phrase : List String)
    (current_word : String) (s : RandSource) (k : ℕ) :
    Except PyError (List String × ℕ) :=
  if is_end_word current_word m.end_words = true then .ok (phrase, k)
  else
    let current_transitions := (alist_get m.transitions current_word).getD []
    let possible_end_words :=
      current_transitions.filter fun p => is_end_word p.1 m.end_words
    if possible_end_words.isEmpty then
      match select_random_end_word m.end_words (s.floats k) with
      | .error e => .error e
      | .ok w => .ok (phrase ++ [w], k + 1)
    else
      match weighted_random_choice (possible_end_words.map Prod.fst)
          (possible_end_words.map Prod.snd) (s.floats k) with
      | .error e => .error e
      | .ok w => .ok (phrase ++ [w], k + 1)

/-- Python `max(int(k) for k in lengths.keys())`: `ValueError` on an empty
distribution. -/
def max_observed_length (lengths : List (ℕ × ℚ)) : Except PyError ℕ :=
  match lengths.map Prod.fst with
  | [] => .error (.valueError "max() arg is an empty sequence")
  | x :: xs => .ok (xs.foldl max x)

/-- Python `generate_phrase(model)` producing the token list it joins (the
`phrase` list of the source).  `fuel` bounds the `return
generate_phrase(model)` restart recursion; `none` means the recursion
never bottomed out within `fuel` restarts. -/
def generate_phrase_tokens (m : ColumnModel) (s : RandSource) :
    ℕ → ℕ → Option (Except PyError (List String × ℕ))
  | _, 0 => none
  | k, fuel + 1 =>
    match max_observed_length m.lengths with
    | .error e => some (.error e)
    | .ok max_length =>
      match sample_phrase_length max_length (s.nats k) with
      | .error e => some (.error e)
      | .ok target_length =>
        match select_start_word m.start_words (s.floats (k + 1)) with
        | .error e => some (.error e)
        | .ok start_word =>
          match phraseWalk m (buildVocabulary m) target_length max_length
              [start_word] start_word s (k + 2) 1000 with
          | .error e => some (.error e)
          | .ok (.ceiling, k') => generate_phrase_tokens m s k' fuel
          | .ok (.finished phrase current_word, k') =>
            match ensure_end_word m phrase current_word s k' with
            | .error e => some (.error e)
            | .ok (phrase', k'') => some (.ok (phrase', k''))

/-- Python `" ".join(...)` on the character level. -/
def joinSpaceChars : List (List Char) → List Char
  | [] => []
  | [t] => t
  | t :: u :: ts => t ++ ' ' :: joinSpaceChars (u :: ts)

/-- Python `" ".join(phrase)`. -/
def joinSpace (ts : List String) : String :=
  String.mk (joinSpaceChars (ts.map String.data))

/-- Python `generate_phrase(model)`: the returned string. -/
def generate_phrase (m : ColumnModel) (s : RandSource) (k fuel : ℕ) :
    Option (Except PyError String) :=
  (generate_phrase_tokens m s k fuel).map fun r => r.map fun p => joinSpace p.1

/-- The inner loop shared by `generate_ideas` and
`generate_with_template`: one phrase per Column Model, in column
order. -/
def generate_row_phrases (models : List ColumnModel) (s : RandSource)
    (k fuel : ℕ) : Option (Except PyError (List String × ℕ)) :=
  match models with
  | [] => some (.ok ([], k))
  | m :: ms =>
    match generate_phrase_tokens m s k fuel with
    | none => none
    | some (.error e) => some (.error e)
    | some (.ok (ts, k')) =>
      match generate_row_phrases ms s k' fuel with
      | none => none
      | some (.error e) => some (.error e)
      | some (.ok (ps, k'')) => some (.ok (joinSpace ts :: ps, k''))

/-- Python `generate_ideas(model_name, count)` from `mcp_markov_models.py`,
after the external `load_model` fetch (a §6 storage collaborator)
produced the Model Set: `count` trials, each joining one phrase per
Column Model with single spaces.  Note the function performs no
validation of `count`. -/
def generate_ideas (models : List ColumnModel) :
    ℕ → RandSource → ℕ → ℕ → Option (Except PyError (List String × ℕ))
  | 0, _, k, _ => some (.ok ([], k))
  | count + 1, s, k, fuel =>
    match generate_row_phrases models s k fuel with
    | none => none
    | some (.error e) => some (.error e)
    | some (.ok (ps, k')) =>
      match generate_ideas models count s k' fuel with
      | none => none
      | some (.error e) => some (.error e)
      | some (.ok (ideas, k'')) => some (.ok (joinSpace ps :: ideas, k''))

/-- Value of a run of decimal digit characters (`int(p)` on a regex
capture of `\d+`). -/
def natOfDigits (ds : List Char) : ℕ :=
  ds.foldl (fun a c => 10 * a + (c.toNat - '0'.toNat)) 0

/-- Python `re.findall(r'\$(\d+)', template)` with each capture parsed by
`int`: the maximal digit runs directly following a `$`. -/
def findPlaceholders : List Char → List ℕ
  | [] => []
  | c :: rest =>
    if c = '$' then
      let ds := rest.takeWhile Char.isDigit
      if ds.isEmpty then findPlaceholders rest
      else natOfDigits ds :: findPlaceholders (rest.drop ds.length)
    else findPlaceholders rest
termination_by l => l.length
decreasing_by
  · simp
  · simp only [List.length_drop, List.length_cons]
    omega
  · simp

/-- Python `str.replace` for a non-empty pattern: replace every
(leftmost, non-overlapping) occurrence of `pat` by `rep`. -/
def replaceAll (pat rep : List Char) : List Char → List Char
  | [] => []
  | c :: rest =>
    if h : pat ≠ [] ∧ pat.isPrefixOf (c :: rest) then
      rep ++ replaceAll pat rep ((c :: rest).drop pat.length)
    else
      c :: replaceAll pat rep rest
termination_by l => l.length
decreasing_by
  · simp only [List.length_drop, List.length_cons]
    have : 1 ≤ pat.length := List.length_pos.mpr h.1
    omega
  · simp

/-- The placeholder `f"${i}"`. -/
def dollarTag (i : ℕ) : List Char :=
  '$' :: (toString i).data

/-- The substitution loop of `generate_with_template`:
`for i, phrase in enumerate(generated_phrases, 1): filled =
filled.replace(f"${i}", phrase)`. -/
def fillTemplate (phrases : List String) (i : ℕ) (tmpl : List Char) :
    List Char :=
  match phrases with
  | [] => tmpl
  | p :: ps => fillTemplate ps (i + 1) (replaceAll (dollarTag i) p.data tmpl)

/-- The trial loop of `generate_with_template`: per trial, generate one
phrase per Column Model then fill the template. -/
def templateTrials (models : List ColumnModel) (template : String) :
    ℕ → RandSource → ℕ → ℕ → Option (Except PyError (List String × ℕ))
  | 0, _, k, _ => some (.ok ([], k))
  | count + 1, s, k, fuel =>
    match generate_row_phrases models s k fuel with
    | none => none
    | some (.error e) => some (.error e)
    | some (.ok (ps, k')) =>
      match templateTrials models template count s k' fuel with
      | none => none
      | some (.error e) => some (.error e)
      | some (.ok (outs, k'')) =>
        some (.ok (String.mk (fillTemplate ps 1 template.data) :: outs, k''))

/-- Python `generate_with_template(model_name, template, count)` from
`mcp_markov_models.py`, after the external `load_model` fetch: find the
`$N` placeholders (`ValueError` when there are none), check the highest
referenced index against the number of models, then run the trials. -/
def generate_with_template (models : List ColumnModel) (template : String)
    (count : ℕ) (s : RandSource) (k fuel : ℕ) :
    Option (Except PyError (List String × ℕ)) :=
  match findPlaceholders template.data with
  | [] =>
    some (.error (.valueError "Template must contain placeholders like $1, $2, etc."))
  | n :: ns =>
    if models.length < ns.foldl max n then
      some (.error (.valueError "Template requires more models than available"))
    else
      templateTrials models template count s k fuel

/-- The argument-validation prefix of `generate_ideas` in
`mcp_markov_models_simple.py` (lines 174-175): `count` outside `[1, 50]`
raises `ValueError`.  The rest of that function performs network I/O and
is not part of the core (§6); nothing precedes this check except
`validate_model_name`. -/
def simple_count_check (count : ℤ) : Except PyError Unit :=
  if count < 1 ∨ 50 < count then
    .error (.valueError "Count must be between 1 and 50")
  else .ok ()

/-! ## Trainer (`generate_markov_models.py`)

The trainer consumes, per column, the token sequences produced by
preprocessing (`preprocess_text`) and tokenization (`nltk.word_tokenize`
— an external library, §4.1 step 3's pluggable tokenizer); the embedding
takes those token sequences directly, so a phrase that preprocesses to
no tokens is the empty list. -/

/-- Python `Counter[k] += 1` on an association-list counter: bump an existing
key in place, else append it with count 1 (Python `Counter` semantics,
insertion ordered). -/
def bump {α : Type} [DecidableEq α] (c : List (α × ℕ)) (k : α) :
    List (α × ℕ) :=
  if k ∈ c.map Prod.fst then
    c.map fun p => if p.1 = k then (p.1, p.2 + 1) else p
  else c ++ [(k, 1)]

/-- Python `transitions[a][b] += 1` on a `defaultdict(Counter)`: accessing an
absent key `a` creates an empty inner counter. -/
def bumpTrans (t : List (String × List (String × ℕ))) (a b : String) :
    List (String × List (String × ℕ)) :=
  if a ∈ t.map Prod.fst then
    t.map fun p => if p.1 = a then (p.1, bump p.2 b) else p
  else t ++ [(a, bump [] b)]

/-- The four accumulators threaded through `extract_phrases`. -/
structure TrainState where
  transitions : List (String × List (String × ℕ))
  start_words : List (String × ℕ)
  end_words : List (String × ℕ)
  lengths : List ℕ
deriving Repr, DecidableEq

/-- The `for i in range(len(tokens) - 1)` transition loop. -/
def recordTransitions (t : List (String × List (String × ℕ))) :
    List String → List (String × List (String × ℕ))
  | a :: b :: rest => recordTransitions (bumpTrans t a b) (b :: rest)
  | _ => t

/-- The body of the `for phrase in phrases` loop of `extract_phrases`:
record the token count, and for a non-empty token sequence count the
first token, the last token and every consecutive pair. -/
def recordPhrase (st : TrainState) (tokens : List String) : TrainState :=
  let st := { st with lengths := st.lengths ++ [tokens.length] }
  match tokens with
  | [] => st
  | t0 :: rest =>
    { st with
      start_words := bump st.start_words t0
      end_words := bump st.end_words ((t0 :: rest).getLast (List.cons_ne_nil t0 rest))
      transitions := recordTransitions st.transitions (t0 :: rest) }

/-- Python `extract_phrases(end_words, lengths, phrases, start_words,
transitions)` over the whole column. -/
def extract_phrases (phrases : List (List String)) : TrainState :=
  phrases.foldl recordPhrase ⟨[], [], [], []⟩

/-- Total of a counter. -/
def counterTotal {α : Type} (c : List (α × ℕ)) : ℕ :=
  (c.map Prod.snd).sum

/-- Python `normalize(counter)`: divide each count by the total.  In Python the
division raises `ZeroDivisionError` exactly when the counter is
non-empty with zero total; an empty counter yields an empty dict. -/
def normalize {α : Type} (counter : List (α × ℕ)) :
    Except PyError (List (α × ℚ)) :=
  if counterTotal counter = 0 ∧ ¬counter.isEmpty then
    .error .zeroDivisionError
  else
    .ok (counter.map fun p => (p.1, (p.2 : ℚ) / (counterTotal counter : ℚ)))

/-- Python `{k: normalize(v) for k, v in transitions.items()}`. -/
def normalizeTrans (t : List (String × List (String × ℕ))) :
    Except PyError (List (String × List (String × ℚ))) :=
  match t with
  | [] => .ok []
  | p :: rest => do
    let d ← normalize p.2
    let ds ← normalizeTrans rest
    return (p.1, d) :: ds

/-- Python `Counter(lengths)`: frequency counter of the recorded lengths, in
first-occurrence order. -/
def listCounter (l : List ℕ) : List (ℕ × ℕ) :=
  l.foldl bump []

/-- The per-column body of `extract_columns`: run `extract_phrases`,
normalize every counter, and assemble the Column Model. -/
def train_column (idx : ℕ) (phrases : List (List String)) :
    Except PyError ColumnModel := do
  let st := extract_phrases phrases
  let tp ← normalizeTrans st.transitions
  let sp ← normalize st.start_words
  let ep ← normalize st.end_words
  let lp ← normalize (listCounter st.lengths)
  return { column_index := idx, transitions := tp, start_words := sp,
           end_words := ep, lengths := lp }

/-- Sum of the values of a probability distribution. -/
def distSum {α : Type} (d : List (α × ℚ)) : ℚ :=
  (d.map Prod.snd).sum

/-- A token occurs in the tokenization of at least one training
phrase. -/
def InTraining (phrases : List (List String)) (tok : String) : Prop :=
  ∃ ts ∈ phrases, tok ∈ ts

/-- Number of consecutive occurrences of the pair `(a, b)` in a token
sequence. -/
def pairCount (a b : String) : List String → ℕ
  | x :: y :: rest => (if x = a ∧ y = b then 1 else 0) + pairCount a b (y :: rest)
  | _ => 0

/-- Count stored under key `k` (0 when absent). -/
def countOf {α : Type} [DecidableEq α] (c : List (α × ℕ)) (k : α) : ℕ :=
  match c with
  | [] => 0
  | p :: rest => if p.1 = k then p.2 else countOf rest k

/-- Count stored under `transitions[a][b]` (0 when absent). -/
def transCountOf (t : List (String × List (String × ℕ))) (a b : String) : ℕ :=
  match t with
  | [] => 0
  | p :: rest => if p.1 = a then countOf p.2 b else transCountOf rest a b

/-! ## Concrete fixtures used by witnesses -/

instance {ε α : Type} [DecidableEq ε] [DecidableEq α] :
    DecidableEq (Except ε α) := fun a b =>
  match a, b with
  | .ok x, .ok y => decidable_of_iff (x = y) (by simp)
  | .error x, .error y => decidable_of_iff (x = y) (by simp)
  | .ok _, .error _ => isFalse fun h => Except.noConfusion h
  | .error _, .ok _ => isFalse fun h => Except.noConfusion h

/-- A fixed random source (every float draw `1/2`, every integer draw
`0`), standing for one possible state of Python's global generator. -/
def constSource : RandSource := ⟨fun _ => 1 / 2, fun _ => 0⟩

/-- The Column Model trained from the single phrase `"a b"`. -/
def sampleModel : ColumnModel :=
  ⟨0, [("a", [("b", 1)])], [("a", 1)], [("b", 1)], [(2, 1)]⟩

/-- A pathological Column Model: every walk appends `"a"` after `"a"`,
hits the ceiling `max_length = 2` without ever seeing an end word
(`end_words` is empty), and restarts. -/
def badModel : ColumnModel :=
  ⟨0, [("a", [("a", 1)])], [("a", 1)], [], [(2, 1)]⟩

/-- Python `generate_phrase` diverges on `m`: whatever the random stream, the
restart recursion never bottoms out within any budget, i.e. the Python
call never returns. -/
def generationDiverges (m : ColumnModel) : Prop :=
  ∀ (s : RandSource) (k fuel : ℕ), generate_phrase m s k fuel = none

/-! ## Basic lemmas about `weighted_random_choice` -/

theorem pickFirst_mem {items : List String} {cum : List ℚ} {i : ℕ} {r : ℚ}
    {x : String} (h : pickFirst items cum i r = .ok x) : x ∈ items := by
  induction cum generalizing i with
  | nil =>
    simp only [pickFirst] at h
    rcases hg : items.getLast? with _ | y <;> rw [hg] at h
    · exact absurd h (by simp)
    · cases h
      obtain ⟨hne, rfl⟩ :=
        List.mem_getLast?_eq_getLast (Option.mem_def.mpr hg)
      exact List.getLast_mem hne
  | cons c rest ih =>
    simp only [pickFirst] at h
    split at h
    · rcases hg : items.get? i with _ | y <;> rw [hg] at h
      · exact absurd h (by simp)
      · cases h
        exact List.get?_mem hg
    · exact ih h

theorem weighted_random_choice_mem {items : List String} {ws : List ℚ}
    {r : ℚ} {x : String} (h : weighted_random_choice items ws r = .ok x) :
    x ∈ items := by
  unfold weighted_random_choice at h
  split at h
  · exact absurd h (by simp)
  · exact pickFirst_mem h

/-- A one-element weighted choice always returns that element. -/
theorem weighted_random_choice_single (w : String) (q r : ℚ) :
    weighted_random_choice [w] [q] r = .ok w := by
  unfold weighted_random_choice
  rw [if_neg (by simp)]
  show pickFirst [w] [0 + q] 0 _ = .ok w
  unfold pickFirst
  split
  · rfl
  · rfl

/-! ## C5: `weighted_random_choice` on `["a","b"]` / `[0,1]` -/

/-- C5 counterexample: the draw `0.0` is a possible value of
`random.random()`, and at that draw `random_val = 0 <= 0 =
cumulative_weights[0]`, so `weighted_random_choice(["a","b"],[0.0,1.0])`
returns `"a"`, not `"b"`. -/
theorem weighted_random_choice_zero_draw_returns_first :
    (0 : ℚ) ≤ 0 ∧ (0 : ℚ) < 1 ∧
      weighted_random_choice ["a", "b"] [0, 1] 0 = .ok "a" := by
  refine ⟨le_refl 0, by norm_num, ?_⟩
  unfold weighted_random_choice
  rw [if_neg (by simp)]
  have hc : cumSums [0, 1] = [0, 1] := by simp [cumSums, List.scanl]
  rw [hc, zero_mul]
  unfold pickFirst
  rw [if_pos (le_refl (0 : ℚ))]
  rfl

/-- C5 (amended): for items `["a","b"]` and weights `[0.0, 1.0]`,
`weighted_random_choice` returns `"b"` for every draw in `(0, 1)`; only
the (possible) draw of exactly `0` returns `"a"`. -/
theorem weighted_random_choice_positive_draw_returns_b (r : ℚ)
    (h0 : 0 < r) (h1 : r < 1) :
    weighted_random_choice ["a", "b"] [0, 1] r = .ok "b" := by
  unfold weighted_random_choice
  rw [if_neg (by simp)]
  have hc : cumSums [0, 1] = [0, 1] := by simp [cumSums, List.scanl]
  rw [hc]
  show pickFirst ["a", "b"] [0, 1] 0 (r * ([0, 1] : List ℚ).getLastD 0) = .ok "b"
  have hl : ([0, 1] : List ℚ).getLastD 0 = 1 := by simp
  rw [hl, mul_one]
  unfold pickFirst
  rw [if_neg (not_le.mpr h0)]
  unfold pickFirst
  rw [if_pos (le_of_lt h1)]
  rfl

theorem weighted_random_choice_positive_draw_returns_b_witness :
    (0 : ℚ) < 1 / 2 ∧ (1 / 2 : ℚ) < 1 ∧
      weighted_random_choice ["a", "b"] [0, 1] (1 / 2) = .ok "b" :=
  ⟨by norm_num, by norm_num,
    weighted_random_choice_positive_draw_returns_b (1 / 2) (by norm_num)
      (by norm_num)⟩

/-! ## Error paths at the head of `generate_phrase` -/

theorem gen_tokens_maxlen_error {m : ColumnModel} (hl : m.lengths = [])
    (s : RandSource) (k fuel : ℕ) :
    generate_phrase_tokens m s k (fuel + 1) =
      some (.error (.valueError "max() arg is an empty sequence")) := by
  simp [generate_phrase_tokens, max_observed_length, hl]

theorem gen_tokens_randint_error {m : ColumnModel} (mx : ℕ)
    (hmax : max_observed_length m.lengths = .ok mx) (hm : mx < 2)
    (s : RandSource) (k fuel : ℕ) :
    generate_phrase_tokens m s k (fuel + 1) =
      some (.error (.valueError "empty range for randrange")) := by
  simp [generate_phrase_tokens, hmax, sample_phrase_length, randint, hm]

theorem gen_tokens_empty_start {m : ColumnModel} (mx : ℕ)
    (hmax : max_observed_length m.lengths = .ok mx) (hm : ¬mx < 2)
    (hs : m.start_words = []) (s : RandSource) (k fuel : ℕ) :
    generate_phrase_tokens m s k (fuel + 1) =
      some (.error (.valueError "Items and weights cannot be empty")) := by
  simp [generate_phrase_tokens, hmax, sample_phrase_length, randint, hm,
    select_start_word, hs, weighted_random_choice]

theorem generate_phrase_of_tokens_error {m : ColumnModel} {s : RandSource}
    {k fuel : ℕ} {e : PyError}
    (h : generate_phrase_tokens m s k fuel = some (.error e)) :
    generate_phrase m s k fuel = some (.error e) := by
  simp [generate_phrase, h, Except.map]

theorem max_observed_length_cons {y : ℕ × ℚ} {ys : List (ℕ × ℚ)} :
    max_observed_length (y :: ys) = .ok ((ys.map Prod.fst).foldl max y.1) := by
  simp [max_observed_length]

theorem foldl_max_lt {n : ℕ} : ∀ (xs : List ℕ) (x : ℕ), x < n →
    (∀ a ∈ xs, a < n) → xs.foldl max x < n
  | [], _, hx, _ => hx
  | a :: rest, x, hx, hxs =>
    foldl_max_lt rest (max x a) (max_lt hx (hxs a (by simp)))
      fun b hb => hxs b (by simp [hb])

/-! ## C10: models whose maximum observed length is below 2 -/

/-- C10: when every key of `lengths` is below 2 (so `maxLength < 2`),
`generate_phrase` raises at `random.randint(2, maxLength)` — an empty
integer range — regardless of the other three distributions and of the
random stream. -/
theorem generate_phrase_max_length_below_two_raises (m : ColumnModel)
    (hne : m.lengths ≠ []) (hlt : ∀ p ∈ m.lengths, p.1 < 2)
    (s : RandSource) (k fuel : ℕ) :
    generate_phrase m s k (fuel + 1) =
      some (.error (.valueError "empty range for randrange")) := by
  obtain ⟨y, ys, hys⟩ := List.exists_cons_of_ne_nil hne
  refine generate_phrase_of_tokens_error
    (gen_tokens_randint_error ((ys.map Prod.fst).foldl max y.1) ?_ ?_ s k fuel)
  · rw [hys]; exact max_observed_length_cons
  · refine foldl_max_lt _ _ (hlt y (by simp [hys])) ?_
    intro a ha
    obtain ⟨p, hp, rfl⟩ := List.mem_map.mp ha
    exact hlt p (by simp [hys, hp])

/-- A model with `lengths = {"1": 1.0}` and non-empty `start_words`,
`end_words` and `transitions`. -/
def shortModel : ColumnModel :=
  ⟨0, [("a", [("a", 1)])], [("a", 1)], [("a", 1)], [(1, 1)]⟩

theorem generate_phrase_max_length_below_two_raises_witness :
    generate_phrase shortModel constSource 0 (0 + 1) =
      some (.error (.valueError "empty range for randrange")) :=
  generate_phrase_max_length_below_two_raises shortModel (by simp [shortModel])
    (by simp [shortModel]) constSource 0 0

/-! ## C3: degenerate models -/

/-- C3: on a model whose `lengths` distribution is empty, or whose
`start_words` distribution is empty (in particular a model trained from
only empty/missing phrases, where all four distributions are empty),
`generate_phrase` raises — the code's realization of the spec's
`DegenerateModelError` is a Python `ValueError` raised before any word
is generated. -/
theorem generate_phrase_degenerate_model_raises (m : ColumnModel)
    (h : m.lengths = [] ∨ m.start_words = []) (s : RandSource) (k fuel : ℕ) :
    ∃ msg, generate_phrase m s k (fuel + 1) =
      some (.error (.valueError msg)) := by
  rcases hl : m.lengths with _ | ⟨y, ys⟩
  · exact ⟨_, generate_phrase_of_tokens_error (gen_tokens_maxlen_error hl s k fuel)⟩
  · have hs : m.start_words = [] := by
      rcases h with h | h
      · rw [h] at hl; cases hl
      · exact h
    have hmax : max_observed_length m.lengths =
        .ok ((ys.map Prod.fst).foldl max y.1) := by
      rw [hl]; exact max_observed_length_cons
    by_cases hm : (ys.map Prod.fst).foldl max y.1 < 2
    · exact ⟨_, generate_phrase_of_tokens_error (gen_tokens_randint_error _ hmax hm s k fuel)⟩
    · exact ⟨_, generate_phrase_of_tokens_error (gen_tokens_empty_start _ hmax hm hs s k fuel)⟩

/-- A model with all four distributions empty, as trained from a column
of only empty/missing phrases. -/
def emptyModel : ColumnModel := ⟨0, [], [], [], []⟩

theorem generate_phrase_degenerate_model_raises_witness :
    ∃ msg, generate_phrase emptyModel constSource 0 (0 + 1) =
      some (.error (.valueError msg)) :=
  generate_phrase_degenerate_model_raises emptyModel (Or.inl rfl) constSource 0 0

/-! ## C1: the ceiling restart and divergence -/

theorem select_next_badModel (s : RandSource) (k : ℕ) :
    select_next_word "a" badModel.transitions ["a"] s k =
      .ok (some "a", k + 2) := by
  unfold select_next_word
  split
  · simp [select_random_word, Nat.mod_one]
  · simp [badModel, alist_get, weighted_random_choice_single]

theorem buildVocabulary_badModel : buildVocabulary badModel = ["a"] := by
  simp [buildVocabulary, badModel, List.dedup_cons_of_mem, List.mem_singleton]

theorem phraseWalk_badModel (s : RandSource) (k n : ℕ) :
    phraseWalk badModel ["a"] 2 2 ["a"] "a" s k (n + 1) =
      .ok (.ceiling, k + 2) := by
  unfold phraseWalk
  rw [select_next_badModel]
  simp [is_end_word, badModel]

theorem generate_phrase_tokens_badModel_step (s : RandSource) (k fuel : ℕ) :
    generate_phrase_tokens badModel s k (fuel + 1) =
      generate_phrase_tokens badModel s (k + 2 + 2) fuel := by
  have hA : max_observed_length badModel.lengths = .ok 2 := rfl
  have hB : ∀ n, sample_phrase_length 2 n = .ok 2 := fun n => by
    simp [sample_phrase_length, randint, Nat.mod_one]
  have hC : ∀ r, select_start_word badModel.start_words r = .ok "a" := fun r => by
    simp [badModel, select_start_word, weighted_random_choice_single]
  have h1000 : (1000 : ℕ) = 999 + 1 := rfl
  simp only [generate_phrase_tokens, hA, hB, hC, buildVocabulary_badModel,
    h1000, phraseWalk_badModel]

theorem generate_phrase_tokens_badModel_none (fuel : ℕ) :
    ∀ (s : RandSource) (k : ℕ),
      generate_phrase_tokens badModel s k fuel = none := by
  induction fuel with
  | zero => intro s k; rfl
  | succ n ih =>
    intro s k
    rw [generate_phrase_tokens_badModel_step]
    exact ih s _

theorem generate_phrase_badModel_none (s : RandSource) (k fuel : ℕ) :
    generate_phrase badModel s k fuel = none := by
  simp [generate_phrase, generate_phrase_tokens_badModel_none]

/-- C1 counterexample: on `badModel` — a pathological but structurally
valid model — every attempt hits the `len(phrase) >= maxLength` ceiling
and restarts, for every random stream and every restart budget; the
call diverges, and in particular never ends in any error: the generator
contains no `GenerationExhaustedError`. -/
theorem generate_phrase_diverges_on_bad_model :
    generationDiverges badModel := fun s k fuel =>
  generate_phrase_badModel_none s k fuel

/-- C1 (amended): when a walk reaches the hard ceiling
(`len(phrase) >= maxLength`) the whole generation restarts from step 1
(an unbounded recursive retry); the reference generator has no restart
cap and no `GenerationExhaustedError` — on a model on which generation
can never reach a valid termination the call diverges (it neither
returns nor raises) instead of surfacing an error. -/
theorem generate_phrase_ceiling_restart_behaviour :
    (∀ (s : RandSource) (k fuel : ℕ),
        generate_phrase_tokens badModel s k (fuel + 1) =
          generate_phrase_tokens badModel s (k + 2 + 2) fuel) ∧
    ∀ (s : RandSource) (k fuel : ℕ) (r : Except PyError String),
        generate_phrase badModel s k fuel ≠ some r := by
  refine ⟨generate_phrase_tokens_badModel_step, fun s k fuel r h => ?_⟩
  rw [generate_phrase_badModel_none] at h
  cases h

/-! ## Concrete runs of `generate_phrase` on `sampleModel` -/

theorem select_next_sampleModel (v : List String) (k : ℕ) :
    select_next_word "a" sampleModel.transitions v constSource k =
      .ok (some "b", k + 2) := by
  unfold select_next_word
  rw [if_neg (by norm_num [constSource])]
  simp [sampleModel, alist_get, weighted_random_choice_single]

theorem phraseWalk_sampleModel (v : List String) (k n : ℕ) :
    phraseWalk sampleModel v 2 2 ["a"] "a" constSource k (n + 1) =
      .ok (.finished ["a", "b"] "b", k + 2) := by
  unfold phraseWalk
  rw [select_next_sampleModel]
  simp [is_end_word, sampleModel]

theorem generate_phrase_tokens_sampleModel (k fuel : ℕ) :
    generate_phrase_tokens sampleModel constSource k (fuel + 1) =
      some (.ok (["a", "b"], k + 4)) := by
  have hA : max_observed_length sampleModel.lengths = .ok 2 := rfl
  have hB : ∀ n, sample_phrase_length 2 n = .ok 2 := fun n => by
    simp [sample_phrase_length, randint, Nat.mod_one]
  have hC : ∀ r, select_start_word sampleModel.start_words r = .ok "a" :=
    fun r => by simp [sampleModel, select_start_word, weighted_random_choice_single]
  have h1000 : (1000 : ℕ) = 999 + 1 := rfl
  have hE : ensure_end_word sampleModel ["a", "b"] "b" constSource (k + 2 + 2) =
      .ok (["a", "b"], k + 4) := by
    simp [ensure_end_word, is_end_word, sampleModel]
  simp only [generate_phrase_tokens, hA, hB, hC, h1000, phraseWalk_sampleModel]
  rw [hE]

theorem joinSpace_ab : joinSpace ["a", "b"] = "a b" := by decide

theorem joinSpace_single (t : String) : joinSpace [t] = t := by
  cases t
  rfl

theorem generate_row_sampleModel (k : ℕ) :
    generate_row_phrases [sampleModel] constSource k 1 =
      some (.ok (["a b"], k + 4)) := by
  have hg : generate_phrase_tokens sampleModel constSource k 1 =
      some (.ok (["a", "b"], k + 4)) := generate_phrase_tokens_sampleModel k 0
  simp [generate_row_phrases, hg, joinSpace_ab]

theorem generate_ideas_sampleModel (count : ℕ) : ∀ k : ℕ,
    generate_ideas [sampleModel] count constSource k 1 =
      some (.ok (List.replicate count "a b", k + 4 * count)) := by
  induction count with
  | zero => intro k; simp [generate_ideas]
  | succ n ih =>
    intro k
    have harith : k + 4 + 4 * n = k + 4 * (n + 1) := by ring
    simp [generate_ideas, generate_row_sampleModel, ih, joinSpace_single,
      List.replicate, harith]

/-! ## C2: `generate_ideas` and the count bound -/

/-- C2 counterexample: `generate_ideas` in `mcp_markov_models.py` (the
function both protocol adapters call) performs no validation of `count`:
at `count = 0` it succeeds and returns the empty list instead of failing
with the spec's `InvalidArgumentError`. -/
theorem generate_ideas_count_zero_succeeds :
    generate_ideas [sampleModel] 0 constSource 0 1 = some (.ok ([], 0)) := rfl

/-- C2 (amended): the full generator's `generate_ideas` has no count
validation — `count = 0` succeeds with an empty list, and every
successful call returns exactly `count` ideas, each one obtained by
generating one phrase per Column Model in column order and joining them
with single spaces; the `[1, 50]` bound (a `ValueError`, the code's
realization of `InvalidArgumentError`) is enforced only by the
simplified variant `mcp_markov_models_simple.generate_ideas`. -/
theorem generate_ideas_count_behaviour :
    (∀ (ms : List ColumnModel) (s : RandSource) (k fuel : ℕ),
        generate_ideas ms 0 s k fuel = some (.ok ([], k))) ∧
    (∀ (ms : List ColumnModel) (count : ℕ) (s : RandSource) (k fuel : ℕ)
        (ideas : List String) (k' : ℕ),
        generate_ideas ms count s k fuel = some (.ok (ideas, k')) →
          ideas.length = count ∧
          ∀ idea ∈ ideas, ∃ (ps : List String) (k₀ k₁ : ℕ),
            generate_row_phrases ms s k₀ fuel = some (.ok (ps, k₁)) ∧
            idea = joinSpace ps) ∧
    (∀ count : ℤ, count < 1 ∨ 50 < count →
        simple_count_check count =
          .error (.valueError "Count must be between 1 and 50")) ∧
    ∀ count : ℤ, 1 ≤ count → count ≤ 50 → simple_count_check count = .ok () := by
  refine ⟨fun ms s k fuel => rfl, ?_, ?_, ?_⟩
  · intro ms count
    induction count with
    | zero =>
      intro s k fuel ideas k' h
      simp only [generate_ideas] at h
      cases h
      exact ⟨rfl, by simp⟩
    | succ n ih =>
      intro s k fuel ideas k' h
      simp only [generate_ideas] at h
      split at h
      · cases h
      · cases h
      · rename_i ps k₁ hrow
        split at h
        · cases h
        · cases h
        · rename_i rest k₂ hrec
          cases h
          obtain ⟨hlen, hall⟩ := ih s k₁ fuel rest _ hrec
          refine ⟨by simp [hlen], ?_⟩
          intro idea hidea
          rcases List.mem_cons.mp hidea with rfl | hmem
          · exact ⟨ps, k, k₁, hrow, rfl⟩
          · exact hall idea hmem
  · intro c hc
    unfold simple_count_check
    rw [if_pos hc]
  · intro c h1 h50
    unfold simple_count_check
    rw [if_neg (by omega)]

theorem generate_ideas_count_behaviour_witness :
    (List.replicate 2 "a b").length = 2 ∧
    simple_count_check 0 = .error (.valueError "Count must be between 1 and 50") ∧
    simple_count_check 51 = .error (.valueError "Count must be between 1 and 50") ∧
    simple_count_check 1 = .ok () ∧
    simple_count_check 50 = .ok () :=
  ⟨(generate_ideas_count_behaviour.2.1 [sampleModel] 2 constSource 0 1
      (List.replicate 2 "a b") 8 (generate_ideas_sampleModel 2 0)).1,
    generate_ideas_count_behaviour.2.2.1 0 (by norm_num),
    generate_ideas_count_behaviour.2.2.1 51 (by norm_num),
    generate_ideas_count_behaviour.2.2.2 1 (by norm_num) (by norm_num),
    generate_ideas_count_behaviour.2.2.2 50 (by norm_num) (by norm_num)⟩

/-! ## C9: a returned phrase always ends on an end word -/

theorem is_end_word_of_mem_keys {w : String} {ew : List (String × ℚ)}
    (h : w ∈ ew.map Prod.fst) : is_end_word w ew = true := by
  obtain ⟨p, hp, rfl⟩ := List.mem_map.mp h
  simp only [is_end_word, List.any_eq_true]
  exact ⟨p, hp, by simp⟩

theorem phraseWalk_finished_last (m : ColumnModel) (v : List String)
    (tl ml : ℕ) : ∀ (n : ℕ) (phrase : List String) (cw : String)
    (s : RandSource) (k : ℕ) (ph : List String) (c' : String) (k' : ℕ),
    phrase.getLast? = some cw →
    phraseWalk m v tl ml phrase cw s k n = .ok (.finished ph c', k') →
    ph.getLast? = some c' := by
  intro n
  induction n with
  | zero =>
    intro phrase cw s k ph c' k' hlast h
    simp only [phraseWalk] at h
    cases h
    exact hlast
  | succ n ih =>
    intro phrase cw s k ph c' k' hlast h
    simp only [phraseWalk] at h
    split at h
    · cases h
    · cases h
      exact hlast
    · split at h
      · cases h
        exact List.getLast?_concat _
      · split at h
        · cases h
        · exact ih _ _ s _ ph c' k' (List.getLast?_concat _) h

theorem ensure_end_word_last (m : ColumnModel) (phrase : List String)
    (cw : String) (s : RandSource) (k : ℕ) (ph' : List String) (k' : ℕ)
    (hlast : phrase.getLast? = some cw)
    (h : ensure_end_word m phrase cw s k = .ok (ph', k')) :
    ∃ w, ph'.getLast? = some w ∧ is_end_word w m.end_words = true := by
  unfold ensure_end_word at h
  split at h
  · rename_i hend
    cases h
    exact ⟨cw, hlast, hend⟩
  · dsimp only at h
    split at h
    · split at h
      · cases h
      · rename_i w hw
        cases h
        refine ⟨w, List.getLast?_concat _, ?_⟩
        exact is_end_word_of_mem_keys
          (weighted_random_choice_mem (by exact hw))
    · split at h
      · cases h
      · rename_i w hw
        cases h
        refine ⟨w, List.getLast?_concat _, ?_⟩
        have hmem := weighted_random_choice_mem hw
        obtain ⟨p, hp, rfl⟩ := List.mem_map.mp hmem
        exact (List.mem_filter.mp hp).2

theorem generate_phrase_tokens_last_end (m : ColumnModel) : ∀ (fuel : ℕ)
    (s : RandSource) (k : ℕ) (ts : List String) (k' : ℕ),
    generate_phrase_tokens m s k fuel = some (.ok (ts, k')) →
    ∃ w, ts.getLast? = some w ∧ is_end_word w m.end_words = true := by
  intro fuel
  induction fuel with
  | zero => intro s k ts k' h; cases h
  | succ n ih =>
    intro s k ts k' h
    simp only [generate_phrase_tokens] at h
    split at h
    · cases h
    · split at h
      · cases h
      · split at h
        · cases h
        · split at h
          · cases h
          · exact ih s _ ts k' h
          · rename_i hwalk
            split at h
            · cases h
            · rename_i hens
              cases h
              exact ensure_end_word_last m _ _ s _ _ _
                (phraseWalk_finished_last m _ _ _ _ _ _ s _ _ _ _ (by simp) hwalk)
                hens

/-- C9: on a model with a non-empty `end_words` distribution, whenever
`generate_phrase` returns a phrase, its last token is a key of
`end_words`: either the walk stopped on a legal end word, or the
post-loop repair appended one (an end-word successor of the current word
when one exists, otherwise a token drawn directly from `end_words`). -/
theorem generate_phrase_ends_with_end_word (m : ColumnModel)
    (_hew : m.end_words ≠ []) (s : RandSource) (k fuel : ℕ)
    (ts : List String) (k' : ℕ)
    (h : generate_phrase_tokens m s k fuel = some (.ok (ts, k'))) :
    ∃ w, ts.getLast? = some w ∧ is_end_word w m.end_words = true :=
  generate_phrase_tokens_last_end m fuel s k ts k' h

theorem generate_phrase_ends_with_end_word_witness :
    ∃ w, (["a", "b"] : List String).getLast? = some w ∧
      is_end_word w sampleModel.end_words = true :=
  generate_phrase_ends_with_end_word sampleModel (by simp [sampleModel])
    constSource 0 1 ["a", "b"] 4 (generate_phrase_tokens_sampleModel 0 0)

/-! ## Token closure of generated phrases

Every token a successful `generate_phrase` emits comes from the model:
a vocabulary word, a transition destination, a start word or an end
word.  This is stated through an arbitrary predicate `P` holding on all
tokens of the model. -/

/-- Python `P` holds on every token occurring anywhere in the model: transition
source keys, transition destination keys, start words and end words. -/
def ModelTokenPred (m : ColumnModel) (P : String → Prop) : Prop :=
  (∀ d ∈ m.transitions, P d.1 ∧ ∀ q ∈ d.2, P q.1) ∧
  (∀ p ∈ m.start_words, P p.1) ∧ (∀ p ∈ m.end_words, P p.1)

theorem select_random_word_mem {v : List String} {n : ℕ} {w : String}
    (h : select_random_word v n = .ok w) : w ∈ v := by
  unfold select_random_word at h
  split at h
  · cases h
  · rename_i hne
    cases h
    have hlen : 0 < v.length := by
      cases v
      · simp at hne
      · simp
    have hi : n % v.length < v.length := Nat.mod_lt _ hlen
    show List.getD v (n % v.length) "" ∈ v
    unfold List.getD
    rw [List.get?_eq_get hi]
    exact List.get_mem _ _ _

theorem alist_get_mem {β : Type} {l : List (String × β)} {key : String}
    {v : β} (h : alist_get l key = some v) : ∃ p ∈ l, p.2 = v := by
  induction l with
  | nil => cases h
  | cons p rest ih =>
    unfold alist_get at h
    split at h
    · cases h
      exact ⟨p, by simp, rfl⟩
    · obtain ⟨q, hq, hv⟩ := ih h
      exact ⟨q, by simp [hq], hv⟩

theorem select_next_word_mem {cw : String} {m : ColumnModel}
    {v : List String} {s : RandSource} {k : ℕ} {w : String} {k' : ℕ}
    (h : select_next_word cw m.transitions v s k = .ok (some w, k')) :
    w ∈ v ∨ ∃ d ∈ m.transitions, w ∈ d.2.map Prod.fst := by
  unfold select_next_word at h
  split at h
  · split at h
    · cases h
    · rename_i hw
      cases h
      exact .inl (select_random_word_mem hw)
  · split at h
    · cases h
    · rename_i nw hget
      split at h
      · cases h
      · split at h
        · cases h
        · rename_i w' hw
          cases h
          obtain ⟨d, hd, hdv⟩ := alist_get_mem hget
          refine .inr ⟨d, hd, ?_⟩
          rw [hdv]
          exact weighted_random_choice_mem hw

theorem phraseWalk_tokens (m : ColumnModel) (v : List String)
    (tl ml : ℕ) (P : String → Prop)
    (hv : ∀ w ∈ v, P w)
    (ht : ∀ d ∈ m.transitions, ∀ q ∈ d.2, P q.1) :
    ∀ (n : ℕ) (phrase : List String) (cw : String) (s : RandSource)
      (k : ℕ) (ph : List String) (c' : String) (k' : ℕ),
    (∀ t ∈ phrase, P t) →
    phraseWalk m v tl ml phrase cw s k n = .ok (.finished ph c', k') →
    ∀ t ∈ ph, P t := by
  intro n
  induction n with
  | zero =>
    intro phrase cw s k ph c' k' hall h
    simp only [phraseWalk] at h
    cases h
    exact hall
  | succ n ih =>
    intro phrase cw s k ph c' k' hall h
    simp only [phraseWalk] at h
    split at h
    · cases h
    · cases h
      exact hall
    · rename_i nw k₁ hsel
      have hnw : P nw := by
        rcases select_next_word_mem hsel with hnw | ⟨d, hd, hdw⟩
        · exact hv nw hnw
        · obtain ⟨q, hq, rfl⟩ := List.mem_map.mp hdw
          exact ht d hd q hq
      have hall' : ∀ t ∈ phrase ++ [nw], P t := by
        intro t htmem
        rcases List.mem_append.mp htmem with hmem | hmem
        · exact hall t hmem
        · rw [List.mem_singleton.mp hmem]
          exact hnw
      split at h
      · cases h
        exact hall'
      · split at h
        · cases h
        · exact ih _ _ s _ ph c' k' hall' h

theorem ensure_end_word_tokens (m : ColumnModel) (P : String → Prop)
    (ht : ∀ d ∈ m.transitions, ∀ q ∈ d.2, P q.1)
    (he : ∀ p ∈ m.end_words, P p.1)
    (phrase : List String) (cw : String) (s : RandSource) (k : ℕ)
    (ph' : List String) (k' : ℕ) (hall : ∀ t ∈ phrase, P t)
    (h : ensure_end_word m phrase cw s k = .ok (ph', k')) :
    ∀ t ∈ ph', P t := by
  have happend : ∀ w : String, P w → ∀ t ∈ phrase ++ [w], P t := by
    intro w hw t htmem
    rcases List.mem_append.mp htmem with hmem | hmem
    · exact hall t hmem
    · rw [List.mem_singleton.mp hmem]
      exact hw
  unfold ensure_end_word at h
  split at h
  · cases h
    exact hall
  · dsimp only at h
    split at h
    · split at h
      · cases h
      · rename_i w hw
        cases h
        refine happend w ?_
        have hmem := weighted_random_choice_mem (show weighted_random_choice
          (m.end_words.map Prod.fst) (m.end_words.map Prod.snd)
          (s.floats k) = .ok w from hw)
        obtain ⟨p, hp, rfl⟩ := List.mem_map.mp hmem
        exact he p hp
    · split at h
      · cases h
      · rename_i w hw
        cases h
        refine happend w ?_
        have hmem := weighted_random_choice_mem hw
        obtain ⟨p, hp, rfl⟩ := List.mem_map.mp hmem
        have hpmem := (List.mem_filter.mp hp).1
        rename_i hget2 _ _
        rcases hget : alist_get m.transitions cw with _ | nw
        · rw [hget] at hpmem
          simp at hpmem
        · rw [hget] at hpmem
          obtain ⟨d, hd, hdv⟩ := alist_get_mem hget
          refine ht d hd p ?_
          rw [hdv]
          simpa using hpmem

theorem buildVocabulary_pred (m : ColumnModel) (P : String → Prop)
    (hP : ModelTokenPred m P) : ∀ w ∈ buildVocabulary m, P w := by
  intro w hw
  have hw' := List.mem_dedup.mp hw
  rcases List.mem_append.mp hw' with hw2 | hw2
  · rcases List.mem_append.mp hw2 with hw3 | hw3
    · obtain ⟨d, hd, rfl⟩ := List.mem_map.mp hw3
      exact (hP.1 d hd).1
    · obtain ⟨p, hp, rfl⟩ := List.mem_map.mp hw3
      exact hP.2.2 p hp
  · obtain ⟨p, hp, rfl⟩ := List.mem_map.mp hw2
    exact hP.2.1 p hp

theorem generate_phrase_tokens_all (m : ColumnModel) (P : String → Prop)
    (hP : ModelTokenPred m P) : ∀ (fuel : ℕ) (s : RandSource) (k : ℕ)
    (ts : List String) (k' : ℕ),
    generate_phrase_tokens m s k fuel = some (.ok (ts, k')) →
    ∀ t ∈ ts, P t := by
  intro fuel
  induction fuel with
  | zero => intro s k ts k' h; cases h
  | succ n ih =>
    intro s k ts k' h
    simp only [generate_phrase_tokens] at h
    split at h
    · cases h
    · split at h
      · cases h
      · split at h
        · cases h
        · rename_i sw hsw
          have hstart : P sw := by
            have hmem := weighted_random_choice_mem (show weighted_random_choice
              (m.start_words.map Prod.fst) (m.start_words.map Prod.snd) _ =
                .ok sw from hsw)
            obtain ⟨p, hp, rfl⟩ := List.mem_map.mp hmem
            exact hP.2.1 p hp
          split at h
          · cases h
          · exact ih s _ ts k' h
          · rename_i hwalk
            split at h
            · cases h
            · rename_i hens
              cases h
              refine ensure_end_word_tokens m P (fun d hd => (hP.1 d hd).2)
                hP.2.2 _ _ s _ _ _ ?_ hens
              refine phraseWalk_tokens m _ _ _ P
                (buildVocabulary_pred m P hP) (fun d hd => (hP.1 d hd).2)
                _ _ _ s _ _ _ _ ?_ hwalk
              intro t htmem
              rw [List.mem_singleton.mp htmem]
              exact hstart

/-! ## Dollar-free strings and `str.replace` -/

/-- The string contains no `'$'` character. -/
def NoDollar (t : String) : Prop := '$' ∉ t.data

/-- No token anywhere in the model contains `'$'` (true of every
trained model: `preprocess_text` strips all non-alphanumeric
characters before tokenization). -/
def ModelNoDollar (m : ColumnModel) : Prop := ModelTokenPred m NoDollar

theorem joinSpaceChars_not_mem {c : Char} (hc : c ≠ ' ') :
    ∀ ls : List (List Char), (∀ l ∈ ls, c ∉ l) → c ∉ joinSpaceChars ls
  | [], _ => by simp [joinSpaceChars]
  | [t], h => by
    simp only [joinSpaceChars]
    exact h t (by simp)
  | t :: u :: ts, h => by
    simp only [joinSpaceChars, List.mem_append, List.mem_cons]
    push_neg
    exact ⟨h t (by simp), fun heq => absurd heq hc,
      joinSpaceChars_not_mem hc (u :: ts) fun l hl => h l (by simp [hl])⟩

theorem joinSpace_noDollar {ts : List String} (h : ∀ t ∈ ts, NoDollar t) :
    NoDollar (joinSpace ts) := by
  show '$' ∉ (joinSpace ts).data
  show '$' ∉ joinSpaceChars (ts.map String.data)
  refine joinSpaceChars_not_mem (by decide) _ ?_
  intro l hl
  obtain ⟨t, ht, rfl⟩ := List.mem_map.mp hl
  exact h t ht

theorem replaceAll_append_of_not_mem {pt rep : List Char} :
    ∀ (a b : List Char), '$' ∉ a →
    replaceAll ('$' :: pt) rep (a ++ b) = a ++ replaceAll ('$' :: pt) rep b
  | [], _, _ => by simp
  | c :: a', b, h => by
    have hc : c ≠ '$' := fun hce => h (hce ▸ List.mem_cons_self c a')
    rw [List.cons_append]
    rw [replaceAll]
    rw [dif_neg]
    · rw [replaceAll_append_of_not_mem a' b
        fun hm => h (List.mem_cons_of_mem c hm)]
      rfl
    · intro hcontra
      have hpre := hcontra.2
      simp only [List.isPrefixOf, Bool.and_eq_true, beq_iff_eq] at hpre
      exact hc hpre.1.symm

theorem not_infix_of_not_mem {l ds : List Char} (h : '$' ∉ l) :
    ¬('$' :: ds <:+: l) := fun hinf => h (hinf.subset (by simp))

/-! ## C8: template substitution -/

theorem dollarTag_one : dollarTag 1 = ['$', '1'] := by decide

theorem dollarTag_two : dollarTag 2 = ['$', '2'] := by decide

theorem fillTemplate_pair (p1 p2 : String) (tmpl : List Char) :
    fillTemplate [p1, p2] 1 tmpl =
      replaceAll (dollarTag 2) p2.data (replaceAll (dollarTag 1) p1.data tmpl) :=
  rfl

theorem replaceAll_dollar1_template (rep : List Char) :
    replaceAll ['$', '1'] rep ("A $1 for $2".data) =
      "A ".data ++ rep ++ " for $2".data := by
  simp [replaceAll, List.isPrefixOf]

theorem replaceAll_dollar2_tail (rep : List Char) :
    replaceAll ['$', '2'] rep (" for $2".data) = " for ".data ++ rep := by
  simp [replaceAll, List.isPrefixOf]

theorem filled_pair_eq (p1 p2 : String) (h1 : NoDollar p1) :
    fillTemplate [p1, p2] 1 ("A $1 for $2".data) =
      "A ".data ++ p1.data ++ " for ".data ++ p2.data := by
  rw [fillTemplate_pair, dollarTag_one, dollarTag_two,
    replaceAll_dollar1_template]
  have hnd : '$' ∉ "A ".data ++ p1.data := by
    intro hm
    rcases List.mem_append.mp hm with hm | hm
    · exact absurd hm (by decide)
    · exact h1 hm
  calc replaceAll ['$', '2'] p2.data ("A ".data ++ p1.data ++ " for $2".data)
      = ("A ".data ++ p1.data) ++
          replaceAll ['$', '2'] p2.data (" for $2".data) := by
        rw [List.append_assoc]
        exact replaceAll_append_of_not_mem _ _ hnd
    _ = "A ".data ++ p1.data ++ " for ".data ++ p2.data := by
        rw [replaceAll_dollar2_tail]
        simp [List.append_assoc]

theorem generate_row_two_elim {m1 m2 : ColumnModel} {s : RandSource}
    {k fuel : ℕ} {ps : List String} {k' : ℕ}
    (h : generate_row_phrases [m1, m2] s k fuel = some (.ok (ps, k'))) :
    ∃ ts1 ts2 k₁,
      generate_phrase_tokens m1 s k fuel = some (.ok (ts1, k₁)) ∧
      generate_phrase_tokens m2 s k₁ fuel = some (.ok (ts2, k')) ∧
      ps = [joinSpace ts1, joinSpace ts2] := by
  simp only [generate_row_phrases] at h
  split at h
  · cases h
  · cases h
  · rename_i ts1 k₁ h1
    split at h
    · cases h
    · cases h
    · rename_i ps2 k₂ h2
      cases h
      split at h2
      · cases h2
      · cases h2
      · rename_i ts2 k₃ h3
        cases h2
        exact ⟨ts1, ts2, k₁, h1, h3, rfl⟩

theorem templateTrials_two_elim (m1 m2 : ColumnModel) (tmpl : String) :
    ∀ (count : ℕ) (s : RandSource) (k fuel : ℕ) (outs : List String)
      (k' : ℕ),
    templateTrials [m1, m2] tmpl count s k fuel = some (.ok (outs, k')) →
    outs.length = count ∧
    ∀ out ∈ outs, ∃ ts1 ts2 k₀ k₁ k₂,
      generate_phrase_tokens m1 s k₀ fuel = some (.ok (ts1, k₁)) ∧
      generate_phrase_tokens m2 s k₁ fuel = some (.ok (ts2, k₂)) ∧
      out = String.mk (fillTemplate [joinSpace ts1, joinSpace ts2] 1
        tmpl.data) := by
  intro count
  induction count with
  | zero =>
    intro s k fuel outs k' h
    simp only [templateTrials] at h
    cases h
    exact ⟨rfl, by simp⟩
  | succ n ih =>
    intro s k fuel outs k' h
    simp only [templateTrials] at h
    split at h
    · cases h
    · cases h
    · rename_i ps k₁ hrow
      split at h
      · cases h
      · cases h
      · rename_i rest k₂ hrec
        cases h
        obtain ⟨ts1, ts2, k₃, hg1, hg2, hps⟩ := generate_row_two_elim hrow
        obtain ⟨hlen, hall⟩ := ih s k₁ fuel rest _ hrec
        refine ⟨by simp [hlen], ?_⟩
        intro out hout
        rcases List.mem_cons.mp hout with rfl | hmem
        · exact ⟨ts1, ts2, k, k₃, k₁, hg1, hg2, by rw [hps]⟩
        · exact hall out hmem

/-- C8: `generate_with_template` on a two-model set and the template
`"A $1 for $2"` with `count = 3`: when it returns, it returns exactly 3
strings, none containing the literal `$1` or `$2`, and each trial
substitutes, for each placeholder, the one phrase generated from the
corresponding (1-indexed) Column Model — the hypothesis that no model
token contains `'$'` holds for every trained model, whose tokens have
all non-alphanumeric characters stripped. -/
theorem generate_with_template_substitution_complete
    (m1 m2 : ColumnModel) (h1 : ModelNoDollar m1) (h2 : ModelNoDollar m2)
    (s : RandSource) (k fuel : ℕ) (outs : List String) (k' : ℕ)
    (hok : generate_with_template [m1, m2] "A $1 for $2" 3 s k fuel =
      some (.ok (outs, k'))) :
    outs.length = 3 ∧
    ∀ out ∈ outs,
      ¬(['$', '1'] <:+: out.data) ∧ ¬(['$', '2'] <:+: out.data) ∧
      ∃ (ts1 ts2 : List String) (k₀ k₁ k₂ : ℕ),
        generate_phrase_tokens m1 s k₀ fuel = some (.ok (ts1, k₁)) ∧
        generate_phrase_tokens m2 s k₁ fuel = some (.ok (ts2, k₂)) ∧
        out.data = "A ".data ++ (joinSpace ts1).data ++ " for ".data ++
          (joinSpace ts2).data := by
  have hpl : findPlaceholders ("A $1 for $2".data) = [1, 2] := by
    simp [findPlaceholders, natOfDigits]
  have hfold : ([2] : List ℕ).foldl max 1 = 2 := by decide
  unfold generate_with_template at hok
  rw [hpl] at hok
  dsimp only at hok
  rw [if_neg (by simp [hfold])] at hok
  obtain ⟨hlen, hall⟩ := templateTrials_two_elim m1 m2 _ 3 s k fuel outs k' hok
  refine ⟨hlen, ?_⟩
  intro out hout
  obtain ⟨ts1, ts2, k₀, k₁, k₂, hg1, hg2, hfill⟩ := hall out hout
  have hnd1 : NoDollar (joinSpace ts1) := joinSpace_noDollar
    fun t ht => generate_phrase_tokens_all m1 NoDollar h1 fuel s k₀ ts1 k₁ hg1 t ht
  have hnd2 : NoDollar (joinSpace ts2) := joinSpace_noDollar
    fun t ht => generate_phrase_tokens_all m2 NoDollar h2 fuel s k₁ ts2 k₂ hg2 t ht
  have hdata : out.data = "A ".data ++ (joinSpace ts1).data ++
      " for ".data ++ (joinSpace ts2).data := by
    rw [hfill]
    exact filled_pair_eq _ _ hnd1
  have hnodollar : '$' ∉ out.data := by
    rw [hdata]
    intro hm
    simp only [List.mem_append] at hm
    rcases hm with ((hm | hm) | hm) | hm
    · exact absurd hm (by decide)
    · exact hnd1 hm
    · exact absurd hm (by decide)
    · exact hnd2 hm
  exact ⟨not_infix_of_not_mem hnodollar, not_infix_of_not_mem hnodollar,
    ts1, ts2, k₀, k₁, k₂, hg1, hg2, hdata⟩

theorem generate_phrase_tokens_sampleModel1 (k : ℕ) :
    generate_phrase_tokens sampleModel constSource k 1 =
      some (.ok (["a", "b"], k + 4)) :=
  generate_phrase_tokens_sampleModel k 0

theorem generate_row_two_sampleModel (k : ℕ) :
    generate_row_phrases [sampleModel, sampleModel] constSource k 1 =
      some (.ok (["a b", "a b"], k + 8)) := by
  simp [generate_row_phrases, generate_phrase_tokens_sampleModel1,
    joinSpace_ab]

theorem fillTemplate_sample :
    String.mk (fillTemplate ["a b", "a b"] 1 ("A $1 for $2".data)) =
      "A a b for a b" := by
  rw [fillTemplate_pair, dollarTag_one, dollarTag_two]
  simp [replaceAll, List.isPrefixOf]

theorem templateTrials_sampleModel (count : ℕ) : ∀ k : ℕ,
    templateTrials [sampleModel, sampleModel] "A $1 for $2" count
      constSource k 1 =
      some (.ok (List.replicate count "A a b for a b", k + 8 * count)) := by
  induction count with
  | zero => intro k; simp [templateTrials]
  | succ n ih =>
    intro k
    have harith : k + 8 + 8 * n = k + 8 * (n + 1) := by ring
    have hfs : String.mk (fillTemplate ["a b", "a b"] 1
        ['A', ' ', '$', '1', ' ', 'f', 'o', 'r', ' ', '$', '2']) =
        "A a b for a b" := fillTemplate_sample
    simp [templateTrials, generate_row_two_sampleModel, ih,
      List.replicate, harith, hfs]

theorem generate_with_template_sampleModel :
    generate_with_template [sampleModel, sampleModel] "A $1 for $2" 3
      constSource 0 1 =
      some (.ok (List.replicate 3 "A a b for a b", 24)) := by
  have hpl : findPlaceholders ("A $1 for $2".data) = [1, 2] := by
    simp [findPlaceholders, natOfDigits]
  have hfold : ([2] : List ℕ).foldl max 1 = 2 := by decide
  unfold generate_with_template
  rw [hpl]
  dsimp only
  rw [if_neg (by simp [hfold])]
  simpa using templateTrials_sampleModel 3 0

theorem generate_with_template_substitution_complete_witness :
    (List.replicate 3 "A a b for a b").length = 3 ∧
    ∀ out ∈ List.replicate 3 "A a b for a b",
      ¬(['$', '1'] <:+: out.data) ∧ ¬(['$', '2'] <:+: out.data) ∧
      ∃ (ts1 ts2 : List String) (k₀ k₁ k₂ : ℕ),
        generate_phrase_tokens sampleModel constSource k₀ 1 =
          some (.ok (ts1, k₁)) ∧
        generate_phrase_tokens sampleModel constSource k₁ 1 =
          some (.ok (ts2, k₂)) ∧
        out.data = "A ".data ++ (joinSpace ts1).data ++ " for ".data ++
          (joinSpace ts2).data :=
  generate_with_template_substitution_complete sampleModel sampleModel
    (by unfold ModelNoDollar ModelTokenPred NoDollar sampleModel; decide)
    (by unfold ModelNoDollar ModelTokenPred NoDollar sampleModel; decide)
    constSource 0 1 (List.replicate 3 "A a b for a b") 24
    generate_with_template_sampleModel

/-! ## Counting lemmas for the trainer -/

theorem countOf_not_mem {α : Type} [DecidableEq α] {w : α} :
    ∀ {c : List (α × ℕ)}, w ∉ c.map Prod.fst → countOf c w = 0
  | [], _ => rfl
  | p :: rest, h => by
    have hpw : p.1 ≠ w := fun he => h (by simp [he])
    have hrest : w ∉ rest.map Prod.fst := fun hm => h (by simp [hm])
    simp [countOf, hpw, countOf_not_mem hrest]

theorem countOf_cons {α : Type} [DecidableEq α] (p : α × ℕ)
    (c : List (α × ℕ)) (w : α) :
    countOf (p :: c) w = if p.1 = w then p.2 else countOf c w := rfl

theorem transCountOf_cons (p : String × List (String × ℕ))
    (t : List (String × List (String × ℕ))) (a b : String) :
    transCountOf (p :: t) a b =
      if p.1 = a then countOf p.2 b else transCountOf t a b := rfl

theorem mem_keys_cons_iff {α β : Type} [DecidableEq α] {w : α}
    {p : α × β} {rest : List (α × β)} (hpw : ¬p.1 = w) :
    w ∈ (p :: rest).map Prod.fst ↔ w ∈ rest.map Prod.fst := by
  simp only [List.map_cons, List.mem_cons]
  constructor
  · rintro (he | hm)
    · exact absurd he.symm hpw
    · exact hm
  · exact Or.inr

theorem countOf_append {α : Type} [DecidableEq α] (w : α) :
    ∀ c d : List (α × ℕ),
    countOf (c ++ d) w =
      if w ∈ c.map Prod.fst then countOf c w else countOf d w
  | [], d => by simp [countOf]
  | p :: rest, d => by
    rw [List.cons_append, countOf_cons, countOf_append w rest d, countOf_cons]
    by_cases hpw : p.1 = w
    · rw [if_pos hpw, if_pos hpw, if_pos (by simp [← hpw])]
    · rw [if_neg hpw, if_neg hpw]
      by_cases hw : w ∈ rest.map Prod.fst
      · rw [if_pos hw, if_pos ((mem_keys_cons_iff hpw).mpr hw)]
      · rw [if_neg hw, if_neg (fun hm => hw ((mem_keys_cons_iff hpw).mp hm))]

theorem countOf_map_bumpkey {α : Type} [DecidableEq α] (k w : α) :
    ∀ c : List (α × ℕ),
    countOf (c.map fun p => if p.1 = k then (p.1, p.2 + 1) else p) w =
      countOf c w + if k = w ∧ w ∈ c.map Prod.fst then 1 else 0
  | [] => by simp [countOf]
  | p :: rest => by
    rw [List.map_cons, countOf_cons, countOf_cons]
    by_cases hpk : p.1 = k
    · rw [if_pos hpk]
      by_cases hpw : p.1 = w
      · rw [if_pos (show ((p.1, p.2 + 1) : α × ℕ).1 = w from hpw),
          if_pos hpw,
          if_pos ⟨hpk.symm.trans hpw, by simp [← hpw]⟩]
      · rw [if_neg (show ¬((p.1, p.2 + 1) : α × ℕ).1 = w from hpw),
          if_neg hpw, countOf_map_bumpkey k w rest]
        congr 1
        exact if_congr (and_congr_right fun _ =>
          (mem_keys_cons_iff hpw).symm) rfl rfl
    · rw [if_neg hpk]
      by_cases hpw : p.1 = w
      · rw [if_pos hpw, if_pos hpw,
          if_neg (fun hc => hpk (hpw.trans hc.1.symm))]
        rfl
      · rw [if_neg hpw, if_neg hpw, countOf_map_bumpkey k w rest]
        congr 1
        exact if_congr (and_congr_right fun _ =>
          (mem_keys_cons_iff hpw).symm) rfl rfl

theorem countOf_bump {α : Type} [DecidableEq α] (c : List (α × ℕ)) (k w : α) :
    countOf (bump c k) w = countOf c w + if k = w then 1 else 0 := by
  unfold bump
  split
  · rename_i hmem
    rw [countOf_map_bumpkey]
    by_cases hkw : k = w
    · subst hkw
      simp [hmem]
    · simp [hkw]
  · rename_i hmem
    rw [countOf_append]
    by_cases hwc : w ∈ c.map Prod.fst
    · rw [if_pos hwc]
      have hkw : ¬(k = w) := fun he => hmem (he ▸ hwc)
      simp [hkw]
    · rw [if_neg hwc, countOf_not_mem hwc]
      by_cases hkw : k = w <;> simp [countOf, hkw]

theorem transCountOf_not_mem {a b : String} :
    ∀ {t : List (String × List (String × ℕ))},
    a ∉ t.map Prod.fst → transCountOf t a b = 0
  | [], _ => rfl
  | p :: rest, h => by
    have hpa : p.1 ≠ a := fun he => h (by simp [he])
    have hrest : a ∉ rest.map Prod.fst := fun hm => h (by simp [hm])
    simp [transCountOf, hpa, transCountOf_not_mem hrest]

theorem transCountOf_append (a b : String) :
    ∀ t u : List (String × List (String × ℕ)),
    transCountOf (t ++ u) a b =
      if a ∈ t.map Prod.fst then transCountOf t a b else transCountOf u a b
  | [], u => by simp [transCountOf]
  | p :: rest, u => by
    rw [List.cons_append, transCountOf_cons, transCountOf_append a b rest u,
      transCountOf_cons]
    by_cases hpa : p.1 = a
    · rw [if_pos hpa, if_pos hpa, if_pos (by simp [← hpa])]
    · rw [if_neg hpa, if_neg hpa]
      by_cases ha : a ∈ rest.map Prod.fst
      · rw [if_pos ha, if_pos ((mem_keys_cons_iff hpa).mpr ha)]
      · rw [if_neg ha, if_neg (fun hm => ha ((mem_keys_cons_iff hpa).mp hm))]

theorem transCountOf_map_bumpkey (x y a b : String) :
    ∀ t : List (String × List (String × ℕ)),
    transCountOf (t.map fun p => if p.1 = x then (p.1, bump p.2 y) else p)
        a b =
      transCountOf t a b +
        if x = a ∧ a ∈ t.map Prod.fst ∧ y = b then 1 else 0
  | [] => by simp [transCountOf]
  | p :: rest => by
    rw [List.map_cons, transCountOf_cons, transCountOf_cons]
    by_cases hpx : p.1 = x
    · rw [if_pos hpx]
      by_cases hpa : p.1 = a
      · rw [if_pos (show ((p.1, bump p.2 y) : String × List (String × ℕ)).1 =
            a from hpa), if_pos hpa]
        rw [show ((p.1, bump p.2 y) : String × List (String × ℕ)).2 =
          bump p.2 y from rfl]
        rw [countOf_bump]
        congr 1
        exact if_congr (Iff.intro
          (fun hyb => ⟨hpx.symm.trans hpa, by simp [← hpa], hyb⟩)
          (fun hc => hc.2.2) : (y = b) ↔ _) rfl rfl
      · rw [if_neg (show ¬((p.1, bump p.2 y) :
            String × List (String × ℕ)).1 = a from hpa), if_neg hpa,
          transCountOf_map_bumpkey x y a b rest]
        congr 1
        exact if_congr (and_congr_right fun _ => and_congr_left fun _ =>
          (mem_keys_cons_iff hpa).symm) rfl rfl
    · rw [if_neg hpx]
      by_cases hpa : p.1 = a
      · rw [if_pos hpa, if_pos hpa,
          if_neg (fun hc => hpx (hpa.trans hc.1.symm))]
        rfl
      · rw [if_neg hpa, if_neg hpa, transCountOf_map_bumpkey x y a b rest]
        congr 1
        exact if_congr (and_congr_right fun _ => and_congr_left fun _ =>
          (mem_keys_cons_iff hpa).symm) rfl rfl

theorem transCountOf_bumpTrans
    (t : List (String × List (String × ℕ))) (x y a b : String) :
    transCountOf (bumpTrans t x y) a b =
      transCountOf t a b + if x = a ∧ y = b then 1 else 0 := by
  unfold bumpTrans
  split
  · rename_i hmem
    rw [transCountOf_map_bumpkey]
    by_cases hxa : x = a
    · subst hxa
      simp [hmem]
    · simp [hxa]
  · rename_i hmem
    rw [transCountOf_append]
    by_cases hac : a ∈ t.map Prod.fst
    · rw [if_pos hac]
      have hxa : ¬(x = a) := fun he => hmem (he ▸ hac)
      simp [hxa]
    · rw [if_neg hac, transCountOf_not_mem hac]
      by_cases hxa : x = a
      · subst hxa
        rw [transCountOf_cons, if_pos rfl, countOf_bump, countOf_not_mem
          (by simp)]
        simp
      · rw [transCountOf_cons, if_neg hxa]
        simp [transCountOf, hxa]

theorem transCountOf_recordTransitions (a b : String) :
    ∀ (tokens : List String) (t : List (String × List (String × ℕ))),
    transCountOf (recordTransitions t tokens) a b =
      transCountOf t a b + pairCount a b tokens
  | [], t => by simp [recordTransitions, pairCount]
  | [x], t => by simp [recordTransitions, pairCount]
  | x :: y :: rest, t => by
    show transCountOf (recordTransitions (bumpTrans t x y) (y :: rest)) a b = _
    rw [transCountOf_recordTransitions a b (y :: rest) (bumpTrans t x y),
      transCountOf_bumpTrans]
    show _ = transCountOf t a b +
      ((if x = a ∧ y = b then 1 else 0) + pairCount a b (y :: rest))
    rw [Nat.add_assoc]

/-! ## C7: what one phrase contributes to the statistics -/

/-- C7: processing one more phrase (a token sequence `ts`) appends its
token count to `lengths` — including a `0` entry when the phrase
preprocesses to no tokens — and, exactly when `ts` is non-empty,
increments `start_words` at its first token, `end_words` at its last
token, and `transitions[a][b]` once per consecutive occurrence of the
pair `(a, b)`. -/
theorem extract_phrases_records_phrase_statistics
    (ps : List (List String)) (ts : List String) :
    (extract_phrases (ps ++ [ts])).lengths =
        (extract_phrases ps).lengths ++ [ts.length] ∧
    (∀ w, countOf (extract_phrases (ps ++ [ts])).start_words w =
        countOf (extract_phrases ps).start_words w +
          if ts.head? = some w then 1 else 0) ∧
    (∀ w, countOf (extract_phrases (ps ++ [ts])).end_words w =
        countOf (extract_phrases ps).end_words w +
          if ts.getLast? = some w then 1 else 0) ∧
    ∀ a b, transCountOf (extract_phrases (ps ++ [ts])).transitions a b =
        transCountOf (extract_phrases ps).transitions a b +
          pairCount a b ts := by
  have hfold : extract_phrases (ps ++ [ts]) =
      recordPhrase (extract_phrases ps) ts := by
    unfold extract_phrases
    rw [List.foldl_append]
    rfl
  rw [hfold]
  rcases hts : ts with _ | ⟨t0, rest⟩
  · exact ⟨by simp [recordPhrase], fun w => by simp [recordPhrase],
      fun w => by simp [recordPhrase], fun a b => by simp [recordPhrase, pairCount]⟩
  · refine ⟨by simp [recordPhrase], fun w => ?_, fun w => ?_, fun a b => ?_⟩
    · simp only [recordPhrase]
      rw [countOf_bump]
      simp
    · simp only [recordPhrase]
      rw [countOf_bump]
      rw [List.getLast?_eq_getLast_of_ne_nil (List.cons_ne_nil t0 rest)]
      simp
    · simp only [recordPhrase]
      rw [transCountOf_recordTransitions]

/-! ## C4: normalization of trained distributions -/

/-- All counts in a counter are positive (true of every counter the
trainer builds: `bump` only creates or increments entries). -/
def CounterPos {α : Type} (c : List (α × ℕ)) : Prop := ∀ p ∈ c, 0 < p.2

theorem counterPos_nil {α : Type} : CounterPos ([] : List (α × ℕ)) :=
  fun p hp => absurd hp (List.not_mem_nil p)

theorem counterPos_bump {α : Type} [DecidableEq α] {c : List (α × ℕ)}
    (h : CounterPos c) (k : α) : CounterPos (bump c k) := by
  unfold bump
  split
  · intro p hp
    obtain ⟨q, hq, rfl⟩ := List.mem_map.mp hp
    by_cases hqk : q.1 = k
    · simp only [if_pos hqk]
      exact Nat.succ_pos _
    · simp only [if_neg hqk]
      exact h q hq
  · intro p hp
    rcases List.mem_append.mp hp with hm | hm
    · exact h p hm
    · rw [List.mem_singleton.mp hm]
      exact Nat.one_pos

theorem bump_ne_nil {α : Type} [DecidableEq α] (c : List (α × ℕ)) (k : α) :
    bump c k ≠ [] := by
  unfold bump
  split
  · rename_i hmem
    intro he
    rw [List.map_eq_nil_iff] at he
    rw [he] at hmem
    simp at hmem
  · simp

theorem counterPos_bumpTrans
    {t : List (String × List (String × ℕ))}
    (h : ∀ d ∈ t, CounterPos d.2 ∧ d.2 ≠ []) (a b : String) :
    ∀ d ∈ bumpTrans t a b, CounterPos d.2 ∧ d.2 ≠ [] := by
  unfold bumpTrans
  split
  · intro d hd
    obtain ⟨q, hq, rfl⟩ := List.mem_map.mp hd
    by_cases hqa : q.1 = a
    · simp only [if_pos hqa]
      exact ⟨counterPos_bump (h q hq).1 b, bump_ne_nil _ _⟩
    · simp only [if_neg hqa]
      exact h q hq
  · intro d hd
    rcases List.mem_append.mp hd with hm | hm
    · exact h d hm
    · rw [List.mem_singleton.mp hm]
      exact ⟨counterPos_bump counterPos_nil b, bump_ne_nil [] b⟩

theorem counterPos_recordTransitions :
    ∀ (tokens : List String) (t : List (String × List (String × ℕ))),
    (∀ d ∈ t, CounterPos d.2 ∧ d.2 ≠ []) →
    ∀ d ∈ recordTransitions t tokens, CounterPos d.2 ∧ d.2 ≠ []
  | [], _, h => h
  | [_], _, h => h
  | x :: y :: rest, t, h =>
    counterPos_recordTransitions (y :: rest) (bumpTrans t x y)
      (counterPos_bumpTrans h x y)

theorem extract_phrases_pos_aux :
    ∀ (suffix : List (List String)) (st : TrainState),
    CounterPos st.start_words → CounterPos st.end_words →
    (∀ d ∈ st.transitions, CounterPos d.2 ∧ d.2 ≠ []) →
    CounterPos (suffix.foldl recordPhrase st).start_words ∧
    CounterPos (suffix.foldl recordPhrase st).end_words ∧
    ∀ d ∈ (suffix.foldl recordPhrase st).transitions,
      CounterPos d.2 ∧ d.2 ≠ []
  | [], st, hs, he, ht => ⟨hs, he, ht⟩
  | ts :: rest, st, hs, he, ht => by
    rw [List.foldl_cons]
    refine extract_phrases_pos_aux rest (recordPhrase st ts) ?_ ?_ ?_
    · rcases ts with _ | ⟨t0, tr⟩
      · exact hs
      · exact counterPos_bump hs t0
    · rcases ts with _ | ⟨t0, tr⟩
      · exact he
      · exact counterPos_bump he _
    · rcases ts with _ | ⟨t0, tr⟩
      · exact ht
      · exact counterPos_recordTransitions (t0 :: tr) st.transitions ht

theorem extract_phrases_pos (phrases : List (List String)) :
    CounterPos (extract_phrases phrases).start_words ∧
    CounterPos (extract_phrases phrases).end_words ∧
    ∀ d ∈ (extract_phrases phrases).transitions,
      CounterPos d.2 ∧ d.2 ≠ [] :=
  extract_phrases_pos_aux phrases ⟨[], [], [], []⟩ counterPos_nil
    counterPos_nil (fun d hd => absurd hd (List.not_mem_nil d))

theorem listCounter_pos_aux :
    ∀ (l : List ℕ) (c : List (ℕ × ℕ)), CounterPos c →
    CounterPos (l.foldl bump c)
  | [], c, h => h
  | n :: rest, c, h =>
    listCounter_pos_aux rest (bump c n) (counterPos_bump h n)

theorem listCounter_pos (l : List ℕ) : CounterPos (listCounter l) :=
  listCounter_pos_aux l [] counterPos_nil

theorem counter_zero_total_empty {α : Type} {c : List (α × ℕ)}
    (hpos : CounterPos c) (h : counterTotal c = 0) : c = [] := by
  rcases hc : c with _ | ⟨p, rest⟩
  · rfl
  · exfalso
    have hp := hpos p (by rw [hc]; exact List.mem_cons_self p rest)
    rw [hc] at h
    unfold counterTotal at h
    simp only [List.map_cons, List.sum_cons] at h
    omega

theorem distSum_normalized {α : Type} (c : List (α × ℕ))
    (hT : (counterTotal c : ℚ) ≠ 0) :
    distSum (c.map fun p => (p.1, (p.2 : ℚ) / (counterTotal c : ℚ))) = 1 := by
  unfold distSum
  rw [List.map_map]
  have h1 : (Prod.snd ∘ fun p : α × ℕ =>
      (p.1, (p.2 : ℚ) / (counterTotal c : ℚ))) =
      fun p : α × ℕ => (p.2 : ℚ) * (counterTotal c : ℚ)⁻¹ :=
    funext fun p => div_eq_mul_inv _ _
  rw [h1, List.sum_map_mul_right]
  have hcast : (c.map fun p : α × ℕ => ((p.2 : ℚ))).sum =
      (counterTotal c : ℚ) := by
    unfold counterTotal
    rw [Nat.cast_list_sum, List.map_map]
    rfl
  rw [hcast, mul_inv_cancel₀ hT]

theorem normalize_of_pos {α : Type} {c : List (α × ℕ)} (h : CounterPos c) :
    ∃ d, normalize c = .ok d ∧ d.map Prod.fst = c.map Prod.fst ∧
      (c = [] → d = []) ∧ (c ≠ [] → distSum d = 1) := by
  rcases hc : c with _ | ⟨p, rest⟩
  · exact ⟨[], by simp [normalize, counterTotal], rfl, fun _ => rfl,
      fun hne => absurd rfl hne⟩
  · have hp : 0 < p.2 := h p (by rw [hc]; exact List.mem_cons_self p rest)
    have htot : counterTotal (p :: rest) ≠ 0 := by
      unfold counterTotal
      simp only [List.map_cons, List.sum_cons]
      omega
    have hTQ : ((counterTotal (p :: rest) : ℕ) : ℚ) ≠ 0 :=
      Nat.cast_ne_zero.mpr htot
    refine ⟨(p :: rest).map fun q =>
      (q.1, (q.2 : ℚ) / (counterTotal (p :: rest) : ℚ)), ?_, ?_, ?_, ?_⟩
    · unfold normalize
      rw [if_neg (by simp [htot])]
    · rw [List.map_map]
      rfl
    · intro he
      cases he
    · intro _
      exact distSum_normalized (p :: rest) hTQ

theorem normalizeTrans_of_pos :
    ∀ {t : List (String × List (String × ℕ))},
    (∀ d ∈ t, CounterPos d.2 ∧ d.2 ≠ []) →
    ∃ tp, normalizeTrans t = .ok tp ∧
      (∀ td ∈ tp, td.2 ≠ [] ∧ distSum td.2 = 1) ∧
      ∀ td ∈ tp, ∃ d ∈ t, td.1 = d.1 ∧
        td.2.map Prod.fst = d.2.map Prod.fst
  | [], _ => ⟨[], rfl, fun td htd => absurd htd (List.not_mem_nil td),
      fun td htd => absurd htd (List.not_mem_nil td)⟩
  | p :: rest, h => by
    obtain ⟨d, hd, hkeys, _, hsum⟩ :=
      normalize_of_pos (h p (List.mem_cons_self p rest)).1
    obtain ⟨tp, htp, hprops, hmem⟩ := normalizeTrans_of_pos
      (fun q hq => h q (List.mem_cons_of_mem p hq))
    have hne : d ≠ [] := by
      intro he
      have := (h p (List.mem_cons_self p rest)).2
      rw [he] at hkeys
      rcases hq : p.2 with _ | ⟨q, qs⟩
      · exact this hq
      · rw [hq] at hkeys
        simp at hkeys
    refine ⟨(p.1, d) :: tp, ?_, ?_, ?_⟩
    · unfold normalizeTrans
      simp only [Bind.bind]
      rw [hd]
      simp only [Except.bind]
      rw [htp]
      rfl
    · intro td htd
      rcases List.mem_cons.mp htd with rfl | hm
      · exact ⟨hne, hsum (by
          intro he
          have := (h p (List.mem_cons_self p rest)).2
          exact this he)⟩
      · exact hprops td hm
    · intro td htd
      rcases List.mem_cons.mp htd with rfl | hm
      · exact ⟨p, List.mem_cons_self p rest, rfl, hkeys⟩
      · obtain ⟨q, hq, h1, h2⟩ := hmem td hm
        exact ⟨q, List.mem_cons_of_mem p hq, h1, h2⟩

/-- C4: training always succeeds; every distribution built from a
non-empty counter has values summing to exactly 1, hence to 1.0 within
1e-9 (each `transitions[t]` counter is non-empty by construction), and a
zero-total counter — necessarily empty, since every recorded count is
positive — yields an empty distribution with no entries. -/
theorem train_column_distributions_normalized (idx : ℕ)
    (phrases : List (List String)) :
    ∃ m, train_column idx phrases = .ok m ∧
      (∀ td ∈ m.transitions, td.2 ≠ [] ∧
        |distSum td.2 - 1| ≤ 1 / 1000000000) ∧
      (m.start_words ≠ [] → |distSum m.start_words - 1| ≤ 1 / 1000000000) ∧
      (m.end_words ≠ [] → |distSum m.end_words - 1| ≤ 1 / 1000000000) ∧
      (m.lengths ≠ [] → |distSum m.lengths - 1| ≤ 1 / 1000000000) ∧
      (counterTotal (extract_phrases phrases).start_words = 0 →
        m.start_words = []) ∧
      (counterTotal (extract_phrases phrases).end_words = 0 →
        m.end_words = []) ∧
      (counterTotal (listCounter (extract_phrases phrases).lengths) = 0 →
        m.lengths = []) := by
  obtain ⟨hspos, hepos, htpos⟩ := extract_phrases_pos phrases
  obtain ⟨tp, htp, htprops, _⟩ := normalizeTrans_of_pos htpos
  obtain ⟨sp, hsp, hskeys, hse, hssum⟩ := normalize_of_pos hspos
  obtain ⟨ep, hep, hekeys, hee, hesum⟩ := normalize_of_pos hepos
  obtain ⟨lp, hlp, hlkeys, hle, hlsum⟩ :=
    normalize_of_pos (listCounter_pos (extract_phrases phrases).lengths)
  refine ⟨⟨idx, tp, sp, ep, lp⟩, ?_, ?_, ?_, ?_, ?_, ?_, ?_, ?_⟩
  · simp only [train_column, Bind.bind, Except.bind, htp, hsp, hep, hlp]
    rfl
  · intro td htd
    obtain ⟨hne, hsum⟩ := htprops td htd
    exact ⟨hne, by rw [hsum]; norm_num⟩
  · intro hne
    have hc : (extract_phrases phrases).start_words ≠ [] := by
      intro he
      exact hne (hse he)
    rw [hssum hc]
    norm_num
  · intro hne
    have hc : (extract_phrases phrases).end_words ≠ [] := by
      intro he
      exact hne (hee he)
    rw [hesum hc]
    norm_num
  · intro hne
    have hc : listCounter (extract_phrases phrases).lengths ≠ [] := by
      intro he
      exact hne (hle he)
    rw [hlsum hc]
    norm_num
  · intro h0
    exact hse (counter_zero_total_empty hspos h0)
  · intro h0
    exact hee (counter_zero_total_empty hepos h0)
  · intro h0
    exact hle (counter_zero_total_empty
      (listCounter_pos (extract_phrases phrases).lengths) h0)

/-! ## C6: token closure of trained models -/

theorem mem_bump_key {α : Type} [DecidableEq α] {c : List (α × ℕ)} {k : α}
    {p : α × ℕ} (hp : p ∈ bump c k) : p.1 ∈ c.map Prod.fst ∨ p.1 = k := by
  unfold bump at hp
  split at hp
  · obtain ⟨q, hq, hfq⟩ := List.mem_map.mp hp
    left
    have hq1 : p.1 = q.1 := by
      by_cases hqk : q.1 = k <;> simp [← hfq, hqk]
    rw [hq1]
    exact List.mem_map_of_mem Prod.fst hq
  · rcases List.mem_append.mp hp with hm | hm
    · exact .inl (List.mem_map_of_mem Prod.fst hm)
    · rw [List.mem_singleton.mp hm]
      exact .inr rfl

theorem mem_bumpTrans_dest {t : List (String × List (String × ℕ))}
    {a b : String} {d : String × List (String × ℕ)}
    (hd : d ∈ bumpTrans t a b) {q : String × ℕ} (hq : q ∈ d.2) :
    (∃ d' ∈ t, ∃ q' ∈ d'.2, q'.1 = q.1) ∨ q.1 = b := by
  unfold bumpTrans at hd
  split at hd
  · obtain ⟨d', hd', hfd⟩ := List.mem_map.mp hd
    by_cases hda : d'.1 = a
    · rw [if_pos hda] at hfd
      rw [← hfd] at hq
      rcases mem_bump_key hq with hm | hm
      · obtain ⟨q', hq', hq1⟩ := List.mem_map.mp hm
        exact .inl ⟨d', hd', q', hq', hq1⟩
      · exact .inr hm
    · rw [if_neg hda] at hfd
      rw [← hfd] at hq
      exact .inl ⟨d', hd', q, hq, rfl⟩
  · rcases List.mem_append.mp hd with hm | hm
    · exact .inl ⟨d, hm, q, hq, rfl⟩
    · rw [List.mem_singleton.mp hm] at hq
      have hq2 : q ∈ bump ([] : List (String × ℕ)) b := hq
      rcases mem_bump_key hq2 with hm2 | hm2
      · simp at hm2
      · exact .inr hm2

theorem recordTransitions_dest (P : String → Prop) :
    ∀ (tokens : List String) (t : List (String × List (String × ℕ))),
    (∀ d ∈ t, ∀ q ∈ d.2, P q.1) → (∀ tok ∈ tokens, P tok) →
    ∀ d ∈ recordTransitions t tokens, ∀ q ∈ d.2, P q.1
  | [], _, ht, _ => ht
  | [_], _, ht, _ => ht
  | x :: y :: rest, t, ht, htok => by
    show ∀ d ∈ recordTransitions (bumpTrans t x y) (y :: rest), ∀ q ∈ d.2, P q.1
    refine recordTransitions_dest P (y :: rest) (bumpTrans t x y) ?_
      (fun tok hm => htok tok (List.mem_cons_of_mem x hm))
    intro d hd q hq
    rcases mem_bumpTrans_dest hd hq with ⟨d', hd', q', hq', hq1⟩ | hm
    · rw [← hq1]
      exact ht d' hd' q' hq'
    · rw [hm]
      exact htok y (by simp)

theorem extract_phrases_closed_aux (P : String → Prop) :
    ∀ (suffix : List (List String)) (st : TrainState),
    (∀ p ∈ st.start_words, P p.1) → (∀ p ∈ st.end_words, P p.1) →
    (∀ d ∈ st.transitions, ∀ q ∈ d.2, P q.1) →
    (∀ ts ∈ suffix, ∀ tok ∈ ts, P tok) →
    (∀ p ∈ (suffix.foldl recordPhrase st).start_words, P p.1) ∧
    (∀ p ∈ (suffix.foldl recordPhrase st).end_words, P p.1) ∧
    ∀ d ∈ (suffix.foldl recordPhrase st).transitions, ∀ q ∈ d.2, P q.1
  | [], _, hs, he, ht, _ => ⟨hs, he, ht⟩
  | ts :: rest, st, hs, he, ht, htok => by
    rw [List.foldl_cons]
    refine extract_phrases_closed_aux P rest (recordPhrase st ts) ?_ ?_ ?_
      fun ts' h' tok hm => htok ts' (List.mem_cons_of_mem ts h') tok hm
    · rcases ts with _ | ⟨t0, tr⟩
      · exact hs
      · intro p hp
        simp only [recordPhrase] at hp
        rcases mem_bump_key hp with hm | hm
        · obtain ⟨p', hp', he'⟩ := List.mem_map.mp hm
          rw [← he']
          exact hs p' hp'
        · rw [hm]
          exact htok (t0 :: tr) (by simp) t0 (by simp)
    · rcases ts with _ | ⟨t0, tr⟩
      · exact he
      · intro p hp
        simp only [recordPhrase] at hp
        rcases mem_bump_key hp with hm | hm
        · obtain ⟨p', hp', he'⟩ := List.mem_map.mp hm
          rw [← he']
          exact he p' hp'
        · rw [hm]
          exact htok (t0 :: tr) (by simp) _ (List.getLast_mem _)
    · rcases ts with _ | ⟨t0, tr⟩
      · exact ht
      · intro d hd q hq
        simp only [recordPhrase] at hd
        exact recordTransitions_dest P (t0 :: tr) st.transitions ht
          (fun tok hm => htok (t0 :: tr) (by simp) tok hm) d hd q hq

theorem extract_phrases_closed (phrases : List (List String)) :
    (∀ p ∈ (extract_phrases phrases).start_words, InTraining phrases p.1) ∧
    (∀ p ∈ (extract_phrases phrases).end_words, InTraining phrases p.1) ∧
    ∀ d ∈ (extract_phrases phrases).transitions, ∀ q ∈ d.2,
      InTraining phrases q.1 :=
  extract_phrases_closed_aux (InTraining phrases) phrases ⟨[], [], [], []⟩
    (fun p hp => absurd hp (List.not_mem_nil p))
    (fun p hp => absurd hp (List.not_mem_nil p))
    (fun d hd => absurd hd (List.not_mem_nil d))
    fun ts hts tok htok => ⟨ts, hts, htok⟩

theorem normalize_keys {α : Type} {c : List (α × ℕ)} {d : List (α × ℚ)}
    (h : normalize c = .ok d) : d.map Prod.fst = c.map Prod.fst := by
  unfold normalize at h
  split at h
  · cases h
  · cases h
    rw [List.map_map]
    rfl

theorem normalizeTrans_keys :
    ∀ {t : List (String × List (String × ℕ))}
      {tp : List (String × List (String × ℚ))},
    normalizeTrans t = .ok tp →
    ∀ td ∈ tp, ∃ d ∈ t, td.1 = d.1 ∧ td.2.map Prod.fst = d.2.map Prod.fst
  | [], tp, h => by
    cases h
    intro td htd
    simp at htd
  | p :: rest, tp, h => by
    unfold normalizeTrans at h
    simp only [Bind.bind, Except.bind] at h
    split at h
    · cases h
    · rename_i d hd
      split at h
      · cases h
      · rename_i ds hds
        simp only [pure, Except.pure] at h
        cases h
        intro td htd
        rcases List.mem_cons.mp htd with rfl | hm
        · exact ⟨p, List.mem_cons_self p rest, rfl, normalize_keys hd⟩
        · obtain ⟨q, hq, h1, h2⟩ := normalizeTrans_keys hds td hm
          exact ⟨q, List.mem_cons_of_mem p hq, h1, h2⟩

/-- C6: every token appearing as a destination key inside any
`transitions[t]` mapping, or as a key of `start_words` or `end_words`,
of a trained Column Model occurs in the tokenization of at least one
training phrase of that column. -/
theorem train_column_token_closure (idx : ℕ) (phrases : List (List String))
    (m : ColumnModel) (h : train_column idx phrases = .ok m) :
    (∀ td ∈ m.transitions, ∀ q ∈ td.2, InTraining phrases q.1) ∧
    (∀ p ∈ m.start_words, InTraining phrases p.1) ∧
    (∀ p ∈ m.end_words, InTraining phrases p.1) := by
  obtain ⟨hsclosed, heclosed, htclosed⟩ := extract_phrases_closed phrases
  simp only [train_column, Bind.bind, Except.bind] at h
  split at h
  · cases h
  · rename_i tp htp
    split at h
    · cases h
    · rename_i sp hsp
      split at h
      · cases h
      · rename_i ep hep
        split at h
        · cases h
        · rename_i lp hlp
          simp only [pure, Except.pure] at h
          cases h
          refine ⟨?_, ?_, ?_⟩
          · intro td htd q hq
            obtain ⟨d, hd, _, hkeys⟩ := normalizeTrans_keys htp td htd
            have hqmem : q.1 ∈ d.2.map Prod.fst := by
              rw [← hkeys]
              exact List.mem_map_of_mem Prod.fst hq
            obtain ⟨q', hq', hq1⟩ := List.mem_map.mp hqmem
            rw [← hq1]
            exact htclosed d hd q' hq'
          · intro p hp
            have hpmem : p.1 ∈
                (extract_phrases phrases).start_words.map Prod.fst := by
              rw [← normalize_keys hsp]
              exact List.mem_map_of_mem Prod.fst hp
            obtain ⟨p', hp', hp1⟩ := List.mem_map.mp hpmem
            rw [← hp1]
            exact hsclosed p' hp'
          · intro p hp
            have hpmem : p.1 ∈
                (extract_phrases phrases).end_words.map Prod.fst := by
              rw [← normalize_keys hep]
              exact List.mem_map_of_mem Prod.fst hp
            obtain ⟨p', hp', hp1⟩ := List.mem_map.mp hpmem
            rw [← hp1]
            exact heclosed p' hp'

theorem train_column_sample :
    train_column 0 [["a", "b"]] = .ok sampleModel := by
  norm_num [train_column, extract_phrases, recordPhrase, recordTransitions,
    bumpTrans, bump, normalizeTrans, normalize, counterTotal, listCounter,
    sampleModel, Bind.bind, Except.bind, pure, Except.pure]

theorem train_column_token_closure_witness :
    (∀ td ∈ sampleModel.transitions, ∀ q ∈ td.2,
      InTraining [["a", "b"]] q.1) ∧
    (∀ p ∈ sampleModel.start_words, InTraining [["a", "b"]] p.1) ∧
    (∀ p ∈ sampleModel.end_words, InTraining [["a", "b"]] p.1) :=
  train_column_token_closure 0 [["a", "b"]] sampleModel train_column_sample

end IGG
